import Mathlib

/-!
# SystemMonitor: telemetry core of `src/main.cpp`

A shallow embedding of the sampling code of the monitor:

* `SystemInfo::getCpuUsage` (function-static state made explicit),
* `SystemInfo::getMemoryUsage`,
* `SystemInfo::getProcessList` and `MonitorWindow::updateProcessList`,
* `MonitorWindow::updateData` and `MonitorWindow::clearChart`.

Conventions of the embedding.

* Unsigned 64-bit quantities (`ULARGE_INTEGER::QuadPart`, `DWORDLONG`, `SIZE_T`) are natural
  numbers; subtraction and addition wrap modulo `2 ^ 64` explicitly.
* A C++ `double` is a value of `Dbl`: a rational (a binary64 value), one of the two
  infinities, or NaN. Arithmetic is IEEE 754 in round-to-nearest, ties-to-even: an
  operation on finite values takes the exact rational result and rounds it to binary64
  with `Dbl.ofRat` (overflow to infinity and gradual underflow included). Signed zeros are
  not told apart; every zero divisor met in this program is the conversion of a
  non-negative integer and is therefore a positive zero.
* Operating-system queries are inputs: each call receives a record of what the queries
  answered at that call.
-/

namespace SystemMonitor

/-! ## Rounding to binary64 -/

/-- Number of halvings that take `n` below 2, at most `fuel` of them. -/
def floorLog2Aux : Nat → Nat → Nat
  | 0, _ => 0
  | fuel + 1, n => if 2 ≤ n then floorLog2Aux fuel (n / 2) + 1 else 0

/-- The integer part of the binary logarithm of a positive natural number. -/
def floorLog2 (n : Nat) : Nat := floorLog2Aux n n

/-- The binary exponent of a positive rational `q`: the `e` with `2^e ≤ q < 2^(e+1)`. The
difference of the logarithms of numerator and denominator is `e` or `e + 1`. -/
def binExp (q : ℚ) : Int :=
  if (2 : ℚ) ^ ((floorLog2 q.num.natAbs : Int) - (floorLog2 q.den : Int)) ≤ q then
    (floorLog2 q.num.natAbs : Int) - (floorLog2 q.den : Int)
  else (floorLog2 q.num.natAbs : Int) - (floorLog2 q.den : Int) - 1

/-- The nearest integer, a tie going to the even neighbour. -/
def roundEven (x : ℚ) : Int :=
  if x - ⌊x⌋ < 1 / 2 then ⌊x⌋
  else if 1 / 2 < x - ⌊x⌋ then ⌊x⌋ + 1
  else if ⌊x⌋ % 2 = 0 then ⌊x⌋ else ⌊x⌋ + 1

/-- Spacing of the binary64 values around a positive rational `q`: `2^(e - 52)` for the
binary exponent `e` of `q`, and the subnormal spacing `2^-1074` below `2^-1022`. -/
def ulp (q : ℚ) : ℚ := (2 : ℚ) ^ (max (binExp q) (-1022) - 52)

/-- A C++ `double`: a finite value, an infinity or NaN. -/
inductive Dbl where
  | fin (q : ℚ)
  | pinf
  | ninf
  | nan
deriving DecidableEq

namespace Dbl

/-- Unary minus. -/
def neg : Dbl → Dbl
  | fin q => fin (-q)
  | pinf => ninf
  | ninf => pinf
  | nan => nan

/-- The binary64 value nearest to a positive rational, ties to even; a result of `2^1024`
or more is an overflow to infinity. -/
def ofPosRat (q : ℚ) : Dbl :=
  if (roundEven (q / ulp q) : ℚ) * ulp q < (2 : ℚ) ^ (1024 : ℕ) then
    fin ((roundEven (q / ulp q) : ℚ) * ulp q)
  else pinf

/-- The binary64 value nearest to a rational, ties to even. -/
def ofRat (q : ℚ) : Dbl :=
  if q = 0 then fin 0 else if 0 < q then ofPosRat q else neg (ofPosRat (-q))

/-- Conversion of an unsigned integer to `double`: the nearest binary64 value. -/
def ofNat (n : Nat) : Dbl := ofRat (n : ℚ)

/-- Conversion of an `int` to `double`: exact, an `int` has fewer than 53 significant
bits. -/
def ofInt (z : Int) : Dbl := fin (z : ℚ)

/-- Operator `/` on doubles; a zero divisor is a positive zero. -/
def div : Dbl → Dbl → Dbl
  | nan, _ => nan
  | _, nan => nan
  | fin a, fin b =>
      if b = 0 then (if a = 0 then nan else if 0 < a then pinf else ninf) else ofRat (a / b)
  | fin _, pinf => fin 0
  | fin _, ninf => fin 0
  | pinf, fin b => if 0 ≤ b then pinf else ninf
  | ninf, fin b => if 0 ≤ b then ninf else pinf
  | pinf, pinf => nan
  | pinf, ninf => nan
  | ninf, pinf => nan
  | ninf, ninf => nan

/-- Operator `*` on doubles. -/
def mul : Dbl → Dbl → Dbl
  | nan, _ => nan
  | _, nan => nan
  | fin a, fin b => ofRat (a * b)
  | fin a, pinf => if a = 0 then nan else if 0 < a then pinf else ninf
  | fin a, ninf => if a = 0 then nan else if 0 < a then ninf else pinf
  | pinf, fin b => if b = 0 then nan else if 0 < b then pinf else ninf
  | ninf, fin b => if b = 0 then nan else if 0 < b then ninf else pinf
  | pinf, pinf => pinf
  | pinf, ninf => ninf
  | ninf, pinf => ninf
  | ninf, ninf => pinf

/-- Operator `+` on doubles. -/
def add : Dbl → Dbl → Dbl
  | nan, _ => nan
  | _, nan => nan
  | fin a, fin b => ofRat (a + b)
  | fin _, pinf => pinf
  | fin _, ninf => ninf
  | pinf, fin _ => pinf
  | ninf, fin _ => ninf
  | pinf, pinf => pinf
  | ninf, ninf => ninf
  | pinf, ninf => nan
  | ninf, pinf => nan

/-- Operator `<` on doubles: every comparison with NaN is false. -/
def lt : Dbl → Dbl → Bool
  | fin a, fin b => decide (a < b)
  | fin _, pinf => true
  | ninf, fin _ => true
  | ninf, pinf => true
  | _, _ => false

/-- Operator `<=` on doubles: every comparison with NaN is false. -/
def le : Dbl → Dbl → Bool
  | fin a, fin b => decide (a ≤ b)
  | fin _, pinf => true
  | ninf, fin _ => true
  | ninf, pinf => true
  | pinf, pinf => true
  | ninf, ninf => true
  | _, _ => false

/-- The value is NaN, positive infinity, or a finite number that is not negative. -/
def NotNegative : Dbl → Prop
  | fin q => 0 ≤ q
  | pinf => True
  | ninf => False
  | nan => True

/-- The value is finite and lies in the closed interval from `lo` to `hi`. -/
def InRange (lo hi : ℚ) : Dbl → Prop
  | fin q => lo ≤ q ∧ q ≤ hi
  | _ => False

end Dbl

/-! ## Machine integers -/

/-- Modulus of 64-bit unsigned arithmetic. -/
def U64 : Nat := 2 ^ 64

/-- Unsigned 64-bit subtraction `a - b` of two values below `2 ^ 64`. -/
def sub64 (a b : Nat) : Nat := (a + U64 - b) % U64

/-- Unsigned 64-bit addition `a + b`. -/
def add64 (a b : Nat) : Nat := (a + b) % U64

/-- Conversion of a `DWORD` to `int` (two's complement). -/
def dwordToInt (n : Nat) : Int :=
  if n % 2 ^ 32 < 2 ^ 31 then ((n % 2 ^ 32 : Nat) : Int) else ((n % 2 ^ 32 : Nat) : Int) - 2 ^ 32

/-! ## `SystemInfo::getCpuUsage` -/

/-- The function-static variables of `getCpuUsage`. -/
structure CpuStatics where
  lastCPU : Nat
  lastSysCPU : Nat
  lastUserCPU : Nat
  numProcessors : Int
  first : Bool
deriving DecidableEq

/-- Static initialisation: zeroed counters, `numProcessors = 0`, `first = true`. -/
def CpuStatics.initial : CpuStatics :=
  { lastCPU := 0, lastSysCPU := 0, lastUserCPU := 0, numProcessors := 0, first := true }

/-- What the operating system answers during one call of `getCpuUsage`:
`GetSystemInfo` (read on the first call only), `GetSystemTimeAsFileTime` and the kernel and
user times of `GetProcessTimes`, each `FILETIME` read as one 64-bit value. -/
structure CpuProbe where
  dwNumberOfProcessors : Nat
  ftime : Nat
  fsys : Nat
  fuser : Nat
deriving DecidableEq

/-- Every counter of the probe fits its machine type. -/
def CpuProbe.WellFormed (os : CpuProbe) : Prop :=
  os.ftime < U64 ∧ os.fsys < U64 ∧ os.fuser < U64 ∧ os.dwNumberOfProcessors < 2 ^ 32

/-- One call of `SystemInfo::getCpuUsage`: the returned value and the statics afterwards. -/
def getCpuUsage (st : CpuStatics) (os : CpuProbe) : Dbl × CpuStatics :=
  if st.first then
    (Dbl.fin 0,
      { lastCPU := os.ftime
        lastSysCPU := os.fsys
        lastUserCPU := os.fuser
        numProcessors := dwordToInt os.dwNumberOfProcessors
        first := false })
  else
    let percent := Dbl.ofNat (add64 (sub64 os.fsys st.lastSysCPU) (sub64 os.fuser st.lastUserCPU))
    let percent := percent.div (Dbl.ofNat (sub64 os.ftime st.lastCPU))
    let percent := percent.div (Dbl.ofInt st.numProcessors)
    (percent.mul (Dbl.fin 100),
      { st with lastCPU := os.ftime, lastUserCPU := os.fuser, lastSysCPU := os.fsys })

/-- Values returned by successive calls of `getCpuUsage`, one per probe. -/
def cpuOutputs : CpuStatics → List CpuProbe → List Dbl
  | _, [] => []
  | st, os :: rest => (getCpuUsage st os).1 :: cpuOutputs (getCpuUsage st os).2 rest

/-- Statics after successive calls of `getCpuUsage`. -/
def cpuRun : CpuStatics → List CpuProbe → CpuStatics
  | st, [] => st
  | st, os :: rest => cpuRun (getCpuUsage st os).2 rest

/-! ## `SystemInfo::getMemoryUsage` -/

/-- The two fields of `MEMORYSTATUSEX` the program reads. -/
structure MemProbe where
  ullTotalPhys : Nat
  ullAvailPhys : Nat
deriving DecidableEq

/-- The constant `1024.0 * 1024.0`. -/
def mebi : Dbl := Dbl.mul (Dbl.fin 1024) (Dbl.fin 1024)

/-- Function `SystemInfo::getMemoryUsage`: the pair `(usedMB, totalMB)`. -/
def getMemoryUsage (m : MemProbe) : Dbl × Dbl :=
  let totalMB := (Dbl.ofNat m.ullTotalPhys).div mebi
  let usedMB := (Dbl.ofNat (sub64 m.ullTotalPhys m.ullAvailPhys)).div mebi
  (usedMB, totalMB)

/-! ## `SystemInfo::getProcessList` and `MonitorWindow::updateProcessList` -/

/-- The record `SystemInfo::ProcessInfo`. -/
structure ProcessInfo where
  name : String
  pid : Nat
  memoryMB : Dbl
deriving DecidableEq

/-- One `PROCESSENTRY32W` of the snapshot together with the answer of the queries made on
it: `workingSetSize` is `none` when `OpenProcess` or `GetProcessMemoryInfo` fails. -/
structure SnapshotEntry where
  szExeFile : String
  th32ProcessID : Nat
  workingSetSize : Option Nat
deriving DecidableEq

/-- Function `SystemInfo::getProcessList`; the snapshot is `none` when
`CreateToolhelp32Snapshot` returns `INVALID_HANDLE_VALUE`. -/
def getProcessList (snapshot : Option (List SnapshotEntry)) : List ProcessInfo :=
  match snapshot with
  | none => []
  | some entries =>
      entries.filterMap fun entry =>
        entry.workingSetSize.map fun ws =>
          { name := entry.szExeFile
            pid := entry.th32ProcessID
            memoryMB := (Dbl.ofNat ws).div mebi }

/-- The comparator given to `std::sort`: `a.memoryMB > b.memoryMB`. -/
def memoryGreater (a b : ProcessInfo) : Bool := Dbl.lt b.memoryMB a.memoryMB

/-- Contract of the library routine `std::sort(first, last, comp)`: the range afterwards is a
rearrangement of the range before in which no element is ordered by `comp` before an
element that precedes it. The relative order of equivalent elements is not fixed. -/
def StdSort {α : Type} (comp : α → α → Bool) (input output : List α) : Prop :=
  output.Perm input ∧ output.Pairwise (fun x y => comp y x = false)

/-- Rows `0 .. rowCount - 1` that `MonitorWindow::updateProcessList` writes to the table:
the process list after `std::sort` with `memoryGreater`, entire. -/
def updateProcessList (snapshot : Option (List SnapshotEntry)) (rows : List ProcessInfo) : Prop :=
  StdSort memoryGreater (getProcessList snapshot) rows

/-- Insertion of `x` into a range sorted by `comp`: `x` passes the elements that `comp`
orders before it and stops at the first one that it does not. -/
def insertByComp {α : Type} (comp : α → α → Bool) (x : α) : List α → List α
  | [] => [x]
  | y :: ys => if comp y x then y :: insertByComp comp x ys else x :: y :: ys

/-- Insertion sort by `comp`, one admissible behaviour of `std::sort` (the common library
implementations sort a short range this way). Equivalent elements keep their input order. -/
def insertionSortByComp {α : Type} (comp : α → α → Bool) : List α → List α
  | [] => []
  | x :: xs => insertByComp comp x (insertionSortByComp comp xs)

/-- Adjacent rows: each row paired with the row after it. -/
def adjacentRows (rows : List ProcessInfo) : List (ProcessInfo × ProcessInfo) :=
  rows.zip rows.tail

/-- Ordering of the process lister as the specification words it: working sets descending
and, between adjacent rows of equal working set, pids strictly ascending. -/
def SortedWithPidTieBreak (rows : List ProcessInfo) : Prop :=
  ∀ p ∈ adjacentRows rows,
    Dbl.le p.2.memoryMB p.1.memoryMB = true ∧ (p.1.memoryMB = p.2.memoryMB → p.1.pid < p.2.pid)

/-! ## `MonitorWindow::updateData` and `MonitorWindow::clearChart` -/

/-- The chart members of `MonitorWindow`. The widgets (labels, plot, table) are display
sinks and are not part of the state modelled here. -/
structure MonitorWindow where
  timeData : List Dbl
  cpuData : List Dbl
  memData : List Dbl
  maxDataPoints : Nat
  currentTime : Dbl
deriving DecidableEq

/-- Program state touched by a timer tick: the statics of `getCpuUsage` and the window. -/
structure App where
  cpuStatics : CpuStatics
  window : MonitorWindow
deriving DecidableEq

/-- State after construction of the window, before the first timer tick. -/
def App.initial : App :=
  { cpuStatics := CpuStatics.initial
    window :=
      { timeData := [], cpuData := [], memData := [], maxDataPoints := 60
        currentTime := Dbl.fin 0 } }

/-- What the operating system answers during one timer tick. -/
structure TickProbe where
  cpu : CpuProbe
  mem : MemProbe
deriving DecidableEq

/-- The expression `(usedMem / totalMem) * 100.0` of `updateData`. -/
def memPercentOf (m : MemProbe) : Dbl :=
  (((getMemoryUsage m).1).div (getMemoryUsage m).2).mul (Dbl.fin 100)

/-- The point `(currentTime, cpu, memPercent)` that a tick in state `a` appends. -/
def tickPoint (os : TickProbe) (a : App) : Dbl × Dbl × Dbl :=
  (a.window.currentTime, (getCpuUsage a.cpuStatics os.cpu).1, memPercentOf os.mem)

/-- Slot `MonitorWindow::updateData`. `removeFirst` is `List.tail`: it is applied to
`timeData` right after an append, and to the two other vectors, which have the length of
`timeData` in every reachable state. -/
def updateData (os : TickProbe) (a : App) : App :=
  let cpu := getCpuUsage a.cpuStatics os.cpu
  let memPercent := memPercentOf os.mem
  let timeData := a.window.timeData ++ [a.window.currentTime]
  let cpuData := a.window.cpuData ++ [cpu.1]
  let memData := a.window.memData ++ [memPercent]
  let currentTime := a.window.currentTime.add (Dbl.fin 1)
  if timeData.length > a.window.maxDataPoints then
    { cpuStatics := cpu.2
      window :=
        { a.window with
          timeData := timeData.tail, cpuData := cpuData.tail, memData := memData.tail
          currentTime := currentTime } }
  else
    { cpuStatics := cpu.2
      window :=
        { a.window with
          timeData := timeData, cpuData := cpuData, memData := memData
          currentTime := currentTime } }

/-- Slot `MonitorWindow::clearChart`. -/
def clearChart (a : App) : App :=
  { a with
    window :=
      { a.window with timeData := [], cpuData := [], memData := [], currentTime := Dbl.fin 0 } }

/-- Successive timer ticks, one per probe. -/
def runTicks : List TickProbe → App → App
  | [], a => a
  | os :: rest, a => runTicks rest (updateData os a)

/-- The points appended by successive timer ticks, in the order of the ticks. -/
def appendedPoints : List TickProbe → App → List (Dbl × Dbl × Dbl)
  | [], _ => []
  | os :: rest, a => tickPoint os a :: appendedPoints rest (updateData os a)

/-- States reachable from the initial state by timer ticks and chart resets. -/
inductive Reachable : App → Prop where
  | initial : Reachable App.initial
  | tick (os : TickProbe) (a : App) : Reachable a → Reachable (updateData os a)
  | clear (a : App) : Reachable a → Reachable (clearChart a)

/-- Strictly increasing from front to back. -/
def StrictlyIncreasing (ts : List Dbl) : Prop :=
  ts.Pairwise (fun x y => Dbl.lt x y = true)

/-! ## The specification's formula for the CPU percentage -/

/-- The percentage as the specification words it, in exact rational arithmetic:
`(Δsys + Δuser) × 100 / (Δwall × logicalCpuCount)` with true (unwrapped) differences. -/
def specPercent (st : CpuStatics) (os : CpuProbe) : ℚ :=
  (((os.fsys : ℚ) - (st.lastSysCPU : ℚ)) + ((os.fuser : ℚ) - (st.lastUserCPU : ℚ))) * 100 /
    (((os.ftime : ℚ) - (st.lastCPU : ℚ)) * (st.numProcessors : ℚ))

/-! ## Predicates used in the proofs -/

/-- Bound on the factor by which rounding to binary64 moves a value in the normal range:
`1 + 2^-52`. -/
def relC : ℚ := 1 + 1 / 2 ^ 52

/-- The value `x` is the exact value `E` up to `k` roundings: each is within the factor
`relC ^ k` of the other. -/
def Near (k : ℕ) (x E : ℚ) : Prop := E ≤ x * relC ^ k ∧ x ≤ E * relC ^ k

/-- The value `a` lies between `2^-i` and `2^i`. -/
def Band (i : ℕ) (a : ℚ) : Prop := 1 / 2 ^ i ≤ a ∧ a ≤ 2 ^ i

/-- Never decreasing from front to back. -/
def NonDecreasing (ts : List Dbl) : Prop :=
  ts.Pairwise (fun x y => Dbl.le x y = true)

/-- Invariant of the chart members in every reachable state: `currentTime` is a whole
number `k` of at most `2^53`, no stored timestamp exceeds it, and below `2^53` every stored
timestamp is strictly smaller and the stored timestamps strictly increase. -/
def WindowInv (a : App) : Prop :=
  a.window.maxDataPoints = 60 ∧
    (∃ k : ℕ, k ≤ 2 ^ 53 ∧ a.window.currentTime = Dbl.fin (k : ℚ) ∧
      (∀ t ∈ a.window.timeData, Dbl.le t (Dbl.fin (k : ℚ)) = true) ∧
      (k < 2 ^ 53 → StrictlyIncreasing a.window.timeData ∧
        ∀ t ∈ a.window.timeData, Dbl.lt t (Dbl.fin (k : ℚ)) = true)) ∧
    NonDecreasing a.window.timeData ∧
    a.window.timeData.length ≤ 60 ∧
    a.window.cpuData.length = a.window.timeData.length ∧
    a.window.memData.length = a.window.timeData.length

/-- The memory figure of the process record is not NaN, so the comparator orders it. -/
def ProcessInfo.OrderedMemory (p : ProcessInfo) : Prop := p.memoryMB ≠ Dbl.nan

/-! ## Concrete runs used below -/

/-- A timer tick of an idle process: counters at zero, memory half used. -/
def idleTick : TickProbe := ⟨⟨4, 0, 0, 0⟩, ⟨1000, 500⟩⟩

/-- A run of `2^53 + 2` timer ticks without a reset. -/
def absorbingTicks : List TickProbe := List.replicate (2 ^ 53) idleTick ++ [idleTick, idleTick]

/-- A timer tick that finds three bytes of memory installed and one available. -/
def thirdsTick : TickProbe := ⟨⟨4, 0, 0, 0⟩, ⟨3, 1⟩⟩

/-- An empty rolling series of capacity `C` at time `t0`, with any statics. -/
def emptySeries (st : CpuStatics) (C : Nat) (t0 : Dbl) : App :=
  { cpuStatics := st
    window := { timeData := [], cpuData := [], memData := [], maxDataPoints := C
                currentTime := t0 } }

/-- Five ticks on one processor whose cpu values come out as `10, 20, 30, 40, 50` after a
stored sample `(0, 0, 0)`; memory is half used throughout. -/
def rampProbes : List TickProbe :=
  [⟨⟨1, 1000, 100, 0⟩, ⟨1000, 500⟩⟩, ⟨⟨1, 2000, 300, 0⟩, ⟨1000, 500⟩⟩,
   ⟨⟨1, 3000, 600, 0⟩, ⟨1000, 500⟩⟩, ⟨⟨1, 4000, 1000, 0⟩, ⟨1000, 500⟩⟩,
   ⟨⟨1, 5000, 1500, 0⟩, ⟨1000, 500⟩⟩]

/-- Steady load on four processors: samples `(wall, kernel, user)`. -/
def steadyProbes : List CpuProbe :=
  [⟨4, 0, 0, 0⟩, ⟨4, 1000, 400, 600⟩, ⟨4, 2000, 800, 1200⟩, ⟨4, 3000, 1200, 1800⟩]

/-- Counter reset in mid-stream on four processors. -/
def resetProbes : List CpuProbe :=
  [⟨4, 0, 0, 0⟩, ⟨4, 1000, 500, 500⟩, ⟨4, 2000, 100, 100⟩, ⟨4, 3000, 300, 300⟩]

/-- One processor, kernel and user time each advancing as fast as the wall clock. -/
def overloadProbes : List CpuProbe :=
  [⟨1, 0, 0, 0⟩, ⟨1, 1000, 1000, 1000⟩]

/-- Two successive samples that carry the same wall-clock value. -/
def sameTickProbes : List CpuProbe :=
  [⟨4, 0, 0, 0⟩, ⟨4, 1000, 400, 600⟩, ⟨4, 1000, 500, 700⟩]

/-- Statics after a first call that stored the sample `(0, 0, 0)` on one processor. -/
def oneCpuStatics : CpuStatics :=
  { lastCPU := 0, lastSysCPU := 0, lastUserCPU := 0, numProcessors := 1, first := false }

/-- A sample three wall ticks later with one tick of kernel time: a third of one processor. -/
def thirdProbe : CpuProbe :=
  { dwNumberOfProcessors := 1, ftime := 3, fsys := 1, fuser := 0 }

/-- Statics after a first call that stored the sample `(0, 0, 0)` on two processors. -/
def zeroStatics : CpuStatics :=
  { lastCPU := 0, lastSysCPU := 0, lastUserCPU := 0, numProcessors := 2, first := false }

/-- A sample whose kernel and user deltas from zero add up to exactly `2 ^ 64`. -/
def wrapProbe : CpuProbe :=
  { dwNumberOfProcessors := 2, ftime := 2 ^ 64 - 1, fsys := 2 ^ 63, fuser := 2 ^ 63 }

/-- A snapshot of three processes `(name, pid, working set)`: `A` and `B` with 500 MB each,
`C` with 100 MB. -/
def tieSnapshot : Option (List SnapshotEntry) :=
  some [⟨"A", 100, some (500 * 2 ^ 20)⟩, ⟨"B", 50, some (500 * 2 ^ 20)⟩,
        ⟨"C", 10, some (100 * 2 ^ 20)⟩]

/-- The rows `A`, `B`, `C` in the order of the snapshot. -/
def tieRows : List ProcessInfo :=
  [⟨"A", 100, Dbl.fin 500⟩, ⟨"B", 50, Dbl.fin 500⟩, ⟨"C", 10, Dbl.fin 100⟩]

end SystemMonitor

/-! # Theorems -/

namespace SystemMonitor
open Dbl

/-! ## Rounding to binary64 -/

theorem floorLog2Aux_eq_log (fuel : Nat) : ∀ n : Nat, n ≤ fuel → floorLog2Aux fuel n = Nat.log 2 n := by
  induction fuel with
  | zero =>
    intro n hn
    have : n = 0 := by omega
    subst this
    simp [floorLog2Aux]
  | succ f ih =>
    intro n hn
    unfold floorLog2Aux
    by_cases h : 2 ≤ n
    · rw [if_pos h, ih (n / 2) (by omega), Nat.log_of_one_lt_of_le (by norm_num) h]
    · rw [if_neg h, Nat.log_of_lt (by omega)]

theorem floorLog2_eq_log (n : Nat) : floorLog2 n = Nat.log 2 n :=
  floorLog2Aux_eq_log n n le_rfl

theorem floorLog2_spec {n : Nat} (hn : n ≠ 0) :
    2 ^ floorLog2 n ≤ n ∧ n < 2 ^ (floorLog2 n + 1) := by
  rw [floorLog2_eq_log]
  exact ⟨Nat.pow_log_le_self 2 hn, Nat.lt_pow_succ_log_self (by norm_num) n⟩

theorem quotient_bracket (a b : ℚ) (A B : ℕ) (hb : 0 < b) (ha1 : (2 : ℚ) ^ A ≤ a)
    (ha2 : a < (2 : ℚ) ^ (A + 1)) (hb1 : (2 : ℚ) ^ B ≤ b) (hb2 : b < (2 : ℚ) ^ (B + 1)) :
    (2 : ℚ) ^ ((A : Int) - (B : Int) - 1) ≤ a / b ∧
      a / b < (2 : ℚ) ^ ((A : Int) - (B : Int) + 1) := by
  have two_ne : (2 : ℚ) ≠ 0 := by norm_num
  have hpa : (0 : ℚ) < (2 : ℚ) ^ A := by positivity
  have hpb : (0 : ℚ) < (2 : ℚ) ^ B := by positivity
  have hpb2 : (0 : ℚ) < (2 : ℚ) ^ (B + 1) := by positivity
  constructor
  · have e : (2 : ℚ) ^ ((A : Int) - (B : Int) - 1) = (2 : ℚ) ^ A / (2 : ℚ) ^ (B + 1) := by
      rw [show ((A : Int) - (B : Int) - 1) = ((A : ℕ) : Int) - ((B + 1 : ℕ) : Int) by
        push_cast; ring]
      rw [zpow_sub₀ two_ne, zpow_natCast, zpow_natCast]
    rw [e, div_le_div_iff₀ hpb2 hb]
    nlinarith
  · have e : (2 : ℚ) ^ ((A : Int) - (B : Int) + 1) = (2 : ℚ) ^ (A + 1) / (2 : ℚ) ^ B := by
      rw [show ((A : Int) - (B : Int) + 1) = ((A + 1 : ℕ) : Int) - ((B : ℕ) : Int) by
        push_cast; ring]
      rw [zpow_sub₀ two_ne, zpow_natCast, zpow_natCast]
    rw [e, div_lt_div_iff₀ hb hpb]
    nlinarith

/-- The binary exponent brackets a positive rational between two powers of two. -/
theorem binExp_spec {q : ℚ} (hq : 0 < q) :
    (2 : ℚ) ^ binExp q ≤ q ∧ q < (2 : ℚ) ^ (binExp q + 1) := by
  have hnum : 0 < q.num := Rat.num_pos.mpr hq
  have ha0 : q.num.natAbs ≠ 0 := by omega
  have hb0 : q.den ≠ 0 := q.den_nz
  obtain ⟨ha1, ha2⟩ := floorLog2_spec ha0
  obtain ⟨hb1, hb2⟩ := floorLog2_spec hb0
  have hcast : ((q.num.natAbs : ℕ) : ℚ) = ((q.num : ℤ) : ℚ) :=
    calc ((q.num.natAbs : ℕ) : ℚ) = (((q.num.natAbs : ℕ) : ℤ) : ℚ) := (Int.cast_natCast _).symm
      _ = ((q.num : ℤ) : ℚ) := congrArg _ (Int.natAbs_of_nonneg hnum.le)
  have hqe : (q.num.natAbs : ℚ) / (q.den : ℚ) = q := by
    rw [hcast]
    exact Rat.num_div_den q
  have hbpos : (0 : ℚ) < (q.den : ℚ) := by exact_mod_cast Nat.pos_of_ne_zero hb0
  have ha1q : (2 : ℚ) ^ (floorLog2 q.num.natAbs) ≤ (q.num.natAbs : ℚ) := by exact_mod_cast ha1
  have ha2q : (q.num.natAbs : ℚ) < (2 : ℚ) ^ (floorLog2 q.num.natAbs + 1) := by
    exact_mod_cast ha2
  have hb1q : (2 : ℚ) ^ (floorLog2 q.den) ≤ (q.den : ℚ) := by exact_mod_cast hb1
  have hb2q : (q.den : ℚ) < (2 : ℚ) ^ (floorLog2 q.den + 1) := by exact_mod_cast hb2
  have hbr := quotient_bracket _ _ _ _ hbpos ha1q ha2q hb1q hb2q
  rw [hqe] at hbr
  unfold binExp
  split
  · rename_i h
    exact ⟨h, hbr.2⟩
  · rename_i h
    refine ⟨hbr.1, ?_⟩
    rw [sub_add_cancel]
    exact lt_of_not_le h

/-! ## Round to nearest, ties to even -/

theorem roundEven_bounds (x : ℚ) : ⌊x⌋ ≤ roundEven x ∧ roundEven x ≤ ⌊x⌋ + 1 := by
  unfold roundEven
  split_ifs <;> omega

theorem roundEven_sub_le (x : ℚ) : |(roundEven x : ℚ) - x| ≤ 1 / 2 := by
  have h1 := Int.floor_le x
  have h2 := Int.lt_floor_add_one x
  rw [abs_le]
  unfold roundEven
  split_ifs with ha hb hc
  · constructor <;> linarith
  · push_cast; constructor <;> linarith
  · have : x - ⌊x⌋ = 1 / 2 := le_antisymm (not_lt.mp hb) (not_lt.mp ha)
    constructor <;> linarith
  · have : x - ⌊x⌋ = 1 / 2 := le_antisymm (not_lt.mp hb) (not_lt.mp ha)
    push_cast; constructor <;> linarith

theorem roundEven_intCast (z : ℤ) : roundEven (z : ℚ) = z := by
  unfold roundEven
  rw [Int.floor_intCast]
  simp

theorem roundEven_mono {x y : ℚ} (h : x ≤ y) : roundEven x ≤ roundEven y := by
  have hf : ⌊x⌋ ≤ ⌊y⌋ := Int.floor_le_floor h
  rcases lt_or_eq_of_le hf with hlt | heq
  · have := (roundEven_bounds x).2
    have := (roundEven_bounds y).1
    omega
  · unfold roundEven
    rw [← heq]
    split_ifs <;> first | omega | (exfalso; linarith)

theorem roundEven_nonneg {x : ℚ} (h : 0 ≤ x) : 0 ≤ roundEven x := by
  have := roundEven_mono h
  rw [show ((0 : ℚ)) = ((0 : ℤ) : ℚ) by simp, roundEven_intCast] at this
  exact this

theorem ulp_pos (q : ℚ) : 0 < ulp q := by
  unfold ulp
  positivity

theorem ofRat_zero : ofRat 0 = fin 0 := by simp [ofRat]

theorem ofRat_of_pos {q : ℚ} (hq : 0 < q) : ofRat q = ofPosRat q := by
  simp [ofRat, hq, ne_of_gt hq]

/-- A positive rational rounds to a non-negative finite value or overflows. -/
theorem ofPosRat_nonneg {q : ℚ} (hq : 0 < q) :
    ofPosRat q = pinf ∨ ∃ r : ℚ, ofPosRat q = fin r ∧ 0 ≤ r := by
  unfold ofPosRat
  split
  · right
    refine ⟨_, rfl, ?_⟩
    have h1 : (0 : ℚ) ≤ q / ulp q := div_nonneg hq.le (ulp_pos q).le
    have h2 : (0 : ℚ) ≤ (roundEven (q / ulp q) : ℚ) := by exact_mod_cast roundEven_nonneg h1
    exact mul_nonneg h2 (ulp_pos q).le
  · left; rfl

theorem ofRat_nonneg {q : ℚ} (hq : 0 ≤ q) :
    ofRat q = pinf ∨ ∃ r : ℚ, ofRat q = fin r ∧ 0 ≤ r := by
  rcases eq_or_lt_of_le hq with h | h
  · right
    exact ⟨0, by rw [← h, ofRat_zero], le_rfl⟩
  · rw [ofRat_of_pos h]
    exact ofPosRat_nonneg h

/-- A value that is an integer multiple of its own spacing is kept by rounding. -/
theorem ofPosRat_exact {q : ℚ} (z j : ℤ) (hqz : q = (z : ℚ) * (2 : ℚ) ^ j)
    (hj : max (binExp q) (-1022) - 52 ≤ j) (hlt : q < (2 : ℚ) ^ (1024 : ℕ)) :
    ofPosRat q = fin q := by
  have two_ne : (2 : ℚ) ≠ 0 := by norm_num
  have hu : ulp q = (2 : ℚ) ^ (max (binExp q) (-1022) - 52) := rfl
  obtain ⟨d, hd⟩ : ∃ d : ℕ, j = max (binExp q) (-1022) - 52 + (d : ℤ) :=
    ⟨(j - (max (binExp q) (-1022) - 52)).toNat, by omega⟩
  have hdiv : q / ulp q = ((z * 2 ^ d : ℤ) : ℚ) := by
    rw [hu, div_eq_iff (by positivity)]
    nth_rewrite 1 [hqz]
    rw [hd, zpow_add₀ two_ne, zpow_natCast]
    push_cast
    ring
  have hr : (roundEven (q / ulp q) : ℚ) * ulp q = q := by
    rw [hdiv, roundEven_intCast, ← hdiv, div_mul_cancel₀ _ (ne_of_gt (ulp_pos q))]
  unfold ofPosRat
  rw [hr, if_pos hlt]

/-- Every natural number up to `2^53` is a double. -/
theorem ofRat_natCast (n : ℕ) (hn : n ≤ 2 ^ 53) : ofRat (n : ℚ) = fin (n : ℚ) := by
  rcases Nat.eq_zero_or_pos n with h0 | hpos
  · subst h0; simpa using ofRat_zero
  have hq : (0 : ℚ) < (n : ℚ) := by exact_mod_cast hpos
  rw [ofRat_of_pos hq]
  obtain ⟨h1, _⟩ := binExp_spec hq
  have hnq : (n : ℚ) ≤ (2 : ℚ) ^ (53 : ℤ) := by
    have h53 : (n : ℚ) ≤ (2 : ℚ) ^ (53 : ℕ) := by exact_mod_cast hn
    rw [← zpow_ofNat] at h53
    exact h53
  have he : binExp (n : ℚ) ≤ 53 :=
    (zpow_le_zpow_iff_right₀ (by norm_num : (1 : ℚ) < 2)).mp (h1.trans hnq)
  have hlt : (n : ℚ) < (2 : ℚ) ^ (1024 : ℕ) :=
    lt_of_le_of_lt hnq (by norm_num)
  rcases lt_or_eq_of_le he with hlt53 | heq
  · exact ofPosRat_exact (n : ℤ) 0 (by simp) (by omega) hlt
  · have h2 : (2 : ℚ) ^ (53 : ℤ) ≤ (n : ℚ) := by rw [← heq]; exact h1
    have hn53 : (n : ℚ) = (2 : ℚ) ^ (53 : ℤ) := le_antisymm hnq h2
    exact ofPosRat_exact 1 53 (by simpa using hn53) (by omega) hlt

theorem relC_bound : (1 : ℚ) ≤ (1 - 1 / 2 ^ 53) * relC := by
  unfold relC
  norm_num

/-- In the normal range rounding is finite and moves a value by a factor of at most
`relC` either way. -/
theorem ofRat_rel {q : ℚ} (hlo : 1 / (2 : ℚ) ^ (1022 : ℕ) ≤ q) (hhi : q ≤ (2 : ℚ) ^ (1000 : ℕ)) :
    ∃ r : ℚ, ofRat q = fin r ∧ q ≤ r * relC ∧ r ≤ q * relC := by
  have two_ne : (2 : ℚ) ≠ 0 := by norm_num
  have hq : 0 < q := lt_of_lt_of_le (by positivity) hlo
  rw [ofRat_of_pos hq]
  obtain ⟨h1, h2⟩ := binExp_spec hq
  have hlo2 : (2 : ℚ) ^ (-1022 : ℤ) ≤ q := by
    rw [zpow_neg, zpow_ofNat, ← one_div]
    exact hlo
  have he : -1022 ≤ binExp q := by
    have := (zpow_lt_zpow_iff_right₀ (by norm_num : (1 : ℚ) < 2)).mp (hlo2.trans_lt h2)
    omega
  have hu : ulp q = (2 : ℚ) ^ (binExp q - 52) := by
    unfold ulp
    rw [max_eq_left he]
  have hupos := ulp_pos q
  have hu52 : ulp q * 2 ^ 53 ≤ 2 * q := by
    have : ulp q * 2 ^ 52 = (2 : ℚ) ^ (binExp q) := by
      rw [hu, zpow_sub₀ two_ne]
      norm_num
    nlinarith
  have hk := abs_le.mp (roundEven_sub_le (q / ulp q))
  have hqu : q / ulp q * ulp q = q := div_mul_cancel₀ _ (ne_of_gt hupos)
  have hr1 : (roundEven (q / ulp q) : ℚ) * ulp q ≤ q + ulp q / 2 := by nlinarith
  have hr2 : q - ulp q / 2 ≤ (roundEven (q / ulp q) : ℚ) * ulp q := by nlinarith
  have hd : ulp q / 2 ≤ q * (1 / 2 ^ 53) := by
    rw [mul_one_div, le_div_iff₀ (by positivity)]
    linarith
  have hupper : (roundEven (q / ulp q) : ℚ) * ulp q ≤ q * relC := by
    have : q * (1 + 1 / 2 ^ 53) ≤ q * relC := by
      apply mul_le_mul_of_nonneg_left _ hq.le
      unfold relC
      norm_num
    linarith
  have hlower : q ≤ (roundEven (q / ulp q) : ℚ) * ulp q * relC := by
    have hc : (0 : ℚ) ≤ relC := by unfold relC; positivity
    have h3 : q * (1 - 1 / 2 ^ 53) ≤ (roundEven (q / ulp q) : ℚ) * ulp q := by linarith
    calc q = q * 1 := (mul_one q).symm
      _ ≤ q * ((1 - 1 / 2 ^ 53) * relC) := mul_le_mul_of_nonneg_left relC_bound hq.le
      _ = q * (1 - 1 / 2 ^ 53) * relC := by ring
      _ ≤ (roundEven (q / ulp q) : ℚ) * ulp q * relC := mul_le_mul_of_nonneg_right h3 hc
  have hfin : (roundEven (q / ulp q) : ℚ) * ulp q < (2 : ℚ) ^ (1024 : ℕ) := by
    have hc2 : relC ≤ 2 := by unfold relC; norm_num
    have : q * relC ≤ (2 : ℚ) ^ (1000 : ℕ) * 2 := mul_le_mul hhi hc2 (by unfold relC; positivity) (by positivity)
    have h4 : (2 : ℚ) ^ (1000 : ℕ) * 2 < (2 : ℚ) ^ (1024 : ℕ) := by norm_num
    linarith
  refine ⟨_, ?_, hlower, hupper⟩
  unfold ofPosRat
  rw [if_pos hfin]

theorem binExp_mono {x y : ℚ} (hx : 0 < x) (h : x ≤ y) : binExp x ≤ binExp y := by
  have hy : 0 < y := lt_of_lt_of_le hx h
  have h1 := (binExp_spec hx).1
  have h2 := (binExp_spec hy).2
  have := (zpow_lt_zpow_iff_right₀ (by norm_num : (1 : ℚ) < 2)).mp ((h1.trans h).trans_lt h2)
  omega

theorem zpow_sub52_mul (E : ℤ) :
    (2 : ℚ) ^ (E - 52) * 2 ^ 52 = (2 : ℚ) ^ E ∧ (2 : ℚ) ^ (E - 52) * 2 ^ 53 = (2 : ℚ) ^ (E + 1) := by
  have two_ne : (2 : ℚ) ≠ 0 := by norm_num
  constructor
  · rw [zpow_sub₀ two_ne]
    norm_num
  · rw [zpow_sub₀ two_ne, zpow_add₀ two_ne]
    norm_num
    ring

/-- The rounded magnitude grows with the argument. -/
theorem rounded_mono {x y : ℚ} (hx : 0 < x) (h : x ≤ y) :
    (roundEven (x / ulp x) : ℚ) * ulp x ≤ (roundEven (y / ulp y) : ℚ) * ulp y := by
  have hy : 0 < y := lt_of_lt_of_le hx h
  have hE : max (binExp x) (-1022) ≤ max (binExp y) (-1022) :=
    max_le_max (binExp_mono hx h) le_rfl
  rcases eq_or_lt_of_le hE with heq | hlt
  · have hu : ulp x = ulp y := by unfold ulp; rw [heq]
    rw [hu]
    have hd : x / ulp y ≤ y / ulp y := div_le_div_of_nonneg_right h (ulp_pos y).le
    have hk : (roundEven (x / ulp y) : ℚ) ≤ (roundEven (y / ulp y) : ℚ) := by
      exact_mod_cast roundEven_mono hd
    exact mul_le_mul_of_nonneg_right hk (ulp_pos y).le
  · have hEy : max (binExp y) (-1022) = binExp y := by omega
    have hEx : binExp x ≤ max (binExp x) (-1022) := le_max_left _ _
    have hux : ulp x = (2 : ℚ) ^ (max (binExp x) (-1022) - 52) := rfl
    have huy : ulp y = (2 : ℚ) ^ (binExp y - 52) := by unfold ulp; rw [hEy]
    obtain ⟨ex1, ex2⟩ := zpow_sub52_mul (max (binExp x) (-1022))
    obtain ⟨ey1, ey2⟩ := zpow_sub52_mul (binExp y)
    rw [← hux] at ex1 ex2
    rw [← huy] at ey1 ey2
    -- the larger argument rounds to at least `2 ^ binExp y`
    have hy1 : (2 : ℚ) ^ (binExp y) ≤ y := (binExp_spec hy).1
    have hky : ((2 ^ 52 : ℤ) : ℚ) ≤ y / ulp y := by
      rw [le_div_iff₀ (ulp_pos y)]
      push_cast
      linarith
    have hky2 : ((2 ^ 52 : ℤ) : ℚ) ≤ (roundEven (y / ulp y) : ℚ) := by
      have := roundEven_mono hky
      rw [roundEven_intCast] at this
      exact_mod_cast this
    have hry : (2 : ℚ) ^ (binExp y) ≤ (roundEven (y / ulp y) : ℚ) * ulp y := by
      have := mul_le_mul_of_nonneg_right hky2 (ulp_pos y).le
      push_cast at this
      linarith
    -- the smaller argument rounds to at most `2 ^ (Ex + 1)`
    have hx2 : x < (2 : ℚ) ^ (binExp x + 1) := (binExp_spec hx).2
    have hx3 : (2 : ℚ) ^ (binExp x + 1) ≤ (2 : ℚ) ^ (max (binExp x) (-1022) + 1) :=
      zpow_le_zpow_right₀ (by norm_num) (by omega)
    have hkx : x / ulp x ≤ ((2 ^ 53 : ℤ) : ℚ) := by
      rw [div_le_iff₀ (ulp_pos x)]
      push_cast
      linarith
    have hkx2 : (roundEven (x / ulp x) : ℚ) ≤ ((2 ^ 53 : ℤ) : ℚ) := by
      have := roundEven_mono hkx
      rw [roundEven_intCast] at this
      exact_mod_cast this
    have hrx : (roundEven (x / ulp x) : ℚ) * ulp x ≤ (2 : ℚ) ^ (max (binExp x) (-1022) + 1) := by
      have := mul_le_mul_of_nonneg_right hkx2 (ulp_pos x).le
      push_cast at this
      linarith
    have hstep : (2 : ℚ) ^ (max (binExp x) (-1022) + 1) ≤ (2 : ℚ) ^ (binExp y) :=
      zpow_le_zpow_right₀ (by norm_num) (by omega)
    linarith

/-- Rounding is monotone on non-negative rationals. -/
theorem ofRat_mono {x y : ℚ} (hx : 0 ≤ x) (h : x ≤ y) : Dbl.le (ofRat x) (ofRat y) = true := by
  rcases eq_or_lt_of_le hx with h0 | hpos
  · rw [← h0, ofRat_zero]
    rcases ofRat_nonneg (hx.trans h) with hy | ⟨r, hy, hr⟩
    · rw [hy]; rfl
    · rw [hy]; simpa [Dbl.le] using hr
  · have hy : 0 < y := lt_of_lt_of_le hpos h
    have hm := rounded_mono hpos h
    rw [ofRat_of_pos hpos, ofRat_of_pos hy]
    unfold ofPosRat
    by_cases hfy : (roundEven (y / ulp y) : ℚ) * ulp y < (2 : ℚ) ^ (1024 : ℕ)
    · rw [if_pos hfy, if_pos (lt_of_le_of_lt hm hfy)]
      simpa [Dbl.le] using hm
    · rw [if_neg hfy]
      split <;> rfl

/-- A non-negative value below a natural number `n ≤ 2^53` rounds to at most `n`. -/
theorem ofRat_le_nat {x : ℚ} (n : ℕ) (hn : n ≤ 2 ^ 53) (hx : 0 ≤ x) (h : x ≤ (n : ℚ)) :
    ∃ r : ℚ, ofRat x = fin r ∧ 0 ≤ r ∧ r ≤ (n : ℚ) := by
  have hm := ofRat_mono hx h
  rw [ofRat_natCast n hn] at hm
  rcases ofRat_nonneg hx with hy | ⟨r, hy, hr⟩
  · rw [hy] at hm; simp [Dbl.le] at hm
  · rw [hy] at hm
    exact ⟨r, hy, hr, by simpa [Dbl.le] using hm⟩

/-! ## Accumulation of rounding errors -/

theorem relC_pos : 0 < relC := by unfold relC; positivity

theorem one_le_relC : 1 ≤ relC := by unfold relC; norm_num

theorem relC_pow_pos (k : ℕ) : 0 < relC ^ k := pow_pos relC_pos k

theorem relC_pow_le (k : ℕ) (hk : k ≤ 6) : relC ^ k ≤ relC ^ 6 :=
  pow_le_pow_right₀ one_le_relC hk

theorem relC_pow_six_le_two : relC ^ 6 ≤ 2 := by unfold relC; norm_num

theorem band_pos {i : ℕ} {a : ℚ} (h : Band i a) : 0 < a :=
  lt_of_lt_of_le (by positivity) h.1

theorem band_mono {i j : ℕ} {a : ℚ} (hij : i ≤ j) (h : Band i a) : Band j a := by
  have h2 : (2 : ℚ) ^ i ≤ (2 : ℚ) ^ j := pow_le_pow_right₀ (by norm_num) hij
  exact ⟨(one_div_le_one_div_of_le (by positivity) h2).trans h.1, h.2.trans h2⟩

theorem band_natCast {i n : ℕ} (h1 : 0 < n) (h2 : n < 2 ^ i) : Band i (n : ℚ) := by
  have hn1 : (1 : ℚ) ≤ (n : ℚ) := by exact_mod_cast h1
  have hn2 : (n : ℚ) ≤ (2 : ℚ) ^ i := by exact_mod_cast h2.le
  refine ⟨le_trans ?_ hn1, hn2⟩
  rw [div_le_iff₀ (by positivity)]
  have : (1 : ℚ) ≤ (2 : ℚ) ^ i := one_le_pow₀ (by norm_num)
  linarith

theorem band_div {i j : ℕ} {a b : ℚ} (ha : Band i a) (hb : Band j b) : Band (i + j) (a / b) := by
  have hb0 := band_pos hb
  have hi : (0 : ℚ) < (2 : ℚ) ^ i := by positivity
  have hj : (0 : ℚ) < (2 : ℚ) ^ j := by positivity
  have ha1 : 1 ≤ a * 2 ^ i := by have := ha.1; rwa [div_le_iff₀ hi] at this
  have hb1 : 1 ≤ b * 2 ^ j := by have := hb.1; rwa [div_le_iff₀ hj] at this
  constructor
  · rw [div_le_div_iff₀ (by positivity) hb0, pow_add]
    nlinarith [ha.2, hb.2, band_pos ha]
  · rw [div_le_iff₀ hb0, pow_add]
    nlinarith [ha.2, hb.2, band_pos ha]

theorem band_mul_hundred {i : ℕ} {a : ℚ} (ha : Band i a) : Band (i + 7) (a * 100) := by
  have hi : (0 : ℚ) < (2 : ℚ) ^ i := by positivity
  have ha1 : 1 ≤ a * 2 ^ i := by have := ha.1; rwa [div_le_iff₀ hi] at this
  constructor
  · rw [div_le_iff₀ (by positivity), pow_add]
    nlinarith [ha.2, band_pos ha]
  · rw [pow_add]
    nlinarith [ha.2, band_pos ha]

theorem near_refl (E : ℚ) : Near 0 E E := by simp [Near]

theorem near_pos {k : ℕ} {x E : ℚ} (h : Near k x E) (hE : 0 < E) : 0 < x := by
  by_contra hx
  have := mul_nonpos_of_nonpos_of_nonneg (not_lt.mp hx) (relC_pow_pos k).le
  linarith [h.1]

/-- One more rounding of a value whose exact counterpart is far from overflow and
underflow: the result is finite and one step further from the exact value. -/
theorem near_round {k : ℕ} {x E : ℚ} (h : Near k x E) (hk : k ≤ 6) (hE : Band 200 E) :
    ∃ r : ℚ, ofRat x = fin r ∧ Near (k + 1) r E := by
  have hE0 := band_pos hE
  have hx0 := near_pos h hE0
  have hc2 : relC ^ k ≤ 2 := (relC_pow_le k hk).trans relC_pow_six_le_two
  have hxlo : E ≤ x * 2 := h.1.trans (mul_le_mul_of_nonneg_left hc2 hx0.le)
  have hxhi : x ≤ E * 2 := h.2.trans (mul_le_mul_of_nonneg_left hc2 hE0.le)
  have hlo : 1 / (2 : ℚ) ^ (1022 : ℕ) ≤ x := by
    have h1 : 1 / (2 : ℚ) ^ (201 : ℕ) ≤ x := by
      have := hE.1
      rw [div_le_iff₀ (by positivity)] at this ⊢
      rw [pow_succ]
      linarith
    exact (one_div_le_one_div_of_le (by positivity)
      (pow_le_pow_right₀ (by norm_num) (by norm_num))).trans h1
  have hhi : x ≤ (2 : ℚ) ^ (1000 : ℕ) := by
    have h1 : x ≤ (2 : ℚ) ^ (201 : ℕ) := by
      rw [pow_succ]
      linarith [hE.2]
    exact h1.trans (pow_le_pow_right₀ (by norm_num) (by norm_num))
  obtain ⟨r, hr, h1, h2⟩ := ofRat_rel hlo hhi
  refine ⟨r, hr, ?_, ?_⟩
  · calc E ≤ x * relC ^ k := h.1
      _ ≤ r * relC * relC ^ k := mul_le_mul_of_nonneg_right h1 (relC_pow_pos k).le
      _ = r * relC ^ (k + 1) := by ring
  · calc r ≤ x * relC := h2
      _ ≤ E * relC ^ k * relC := mul_le_mul_of_nonneg_right h.2 relC_pos.le
      _ = E * relC ^ (k + 1) := by ring

theorem near_div {a b : ℕ} {x y X Y : ℚ} (hx : Near a x X) (hy : Near b y Y) (hX : 0 < X)
    (hY : 0 < Y) : Near (a + b) (x / y) (X / Y) := by
  have hx0 := near_pos hx hX
  have hy0 := near_pos hy hY
  have ca := relC_pow_pos a
  have cb := relC_pow_pos b
  constructor
  · rw [div_mul_eq_mul_div, div_le_div_iff₀ hY hy0, pow_add]
    have := mul_le_mul hx.1 hy.2 hy0.le (mul_nonneg hx0.le ca.le)
    linarith
  · rw [div_mul_eq_mul_div, div_le_div_iff₀ hy0 hY, pow_add]
    have := mul_le_mul hx.2 hy.1 hY.le (mul_nonneg hX.le ca.le)
    linarith

theorem near_mul_const {a : ℕ} {x X : ℚ} (h : Near a x X) (c : ℚ) (hc : 0 ≤ c) :
    Near a (x * c) (X * c) := by
  constructor
  · have := mul_le_mul_of_nonneg_right h.1 hc
    linarith
  · have := mul_le_mul_of_nonneg_right h.2 hc
    linarith

/-- At most six roundings of a value between 0 and 100 stay within `10^-9` of it. -/
theorem near_abs_sub {k : ℕ} {x E : ℚ} (h : Near k x E) (hk : k ≤ 6) (hE0 : 0 ≤ E)
    (hE : E ≤ 100) : |x - E| ≤ 1 / 10 ^ 9 := by
  have hck := relC_pow_le k hk
  have hc1 : 1 ≤ relC ^ k := one_le_pow₀ one_le_relC
  have hx0 : 0 ≤ x := by
    by_contra hx
    have := mul_neg_of_neg_of_pos (not_le.mp hx) (relC_pow_pos k)
    linarith [h.1]
  have hnum : 100 * (relC ^ 6 * (relC ^ 6 - 1)) ≤ 1 / 10 ^ 9 := by unfold relC; norm_num
  have hD1 : 1 ≤ relC ^ 6 := one_le_pow₀ one_le_relC
  have hxE : x ≤ E * relC ^ 6 := h.2.trans (mul_le_mul_of_nonneg_left hck hE0)
  have hEx : E ≤ x * relC ^ 6 := h.1.trans (mul_le_mul_of_nonneg_left hck hx0)
  rw [abs_le]
  constructor
  · nlinarith
  · nlinarith

/-! ## Machine integers -/

theorem sub64_of_le {a b : Nat} (ha : a < U64) (hb : b ≤ a) : sub64 a b = a - b := by
  unfold sub64 U64 at *; omega

theorem sub64_self {a : Nat} : sub64 a a = 0 := by
  unfold sub64 U64; simp

theorem add64_of_lt {a b : Nat} (h : a + b < U64) : add64 a b = a + b := by
  unfold add64; exact Nat.mod_eq_of_lt h

theorem sub64_lt (a b : Nat) : sub64 a b < 2 ^ 64 := by
  unfold sub64 U64; omega

theorem add64_lt (a b : Nat) : add64 a b < 2 ^ 64 := by
  unfold add64 U64; omega

/-! ## The CPU estimator -/

/-- A non-first call of `getCpuUsage` replaces the stored counters by the new ones. -/
theorem getCpuUsage_statics_of_not_first (st : CpuStatics) (os : CpuProbe)
    (h : st.first = false) :
    (getCpuUsage st os).2 =
      { lastCPU := os.ftime, lastSysCPU := os.fsys, lastUserCPU := os.fuser
        numProcessors := st.numProcessors, first := false } := by
  simp [getCpuUsage, h]

/-- The value of a non-first call, as the chain of conversions and operations. -/
theorem getCpuUsage_value (st : CpuStatics) (os : CpuProbe) (h : st.first = false) :
    (getCpuUsage st os).1 =
      (((Dbl.ofNat (add64 (sub64 os.fsys st.lastSysCPU) (sub64 os.fuser st.lastUserCPU))).div
        (Dbl.ofNat (sub64 os.ftime st.lastCPU))).div (Dbl.ofInt st.numProcessors)).mul
          (fin 100) := by
  simp [getCpuUsage, h]

theorem ofNat_zero : Dbl.ofNat 0 = fin 0 := by
  simp [Dbl.ofNat, ofRat_zero]

/-- A non-zero unsigned 64-bit value converts to a finite double one rounding away. -/
theorem ofNat_near {s : Nat} (h0 : s ≠ 0) (h : s < 2 ^ 64) :
    ∃ r : ℚ, Dbl.ofNat s = fin r ∧ Near 1 r (s : ℚ) ∧ Band 64 (s : ℚ) := by
  have hb : Band 64 (s : ℚ) := band_natCast (Nat.pos_of_ne_zero h0) h
  obtain ⟨r, hr, hn⟩ := near_round (near_refl (s : ℚ)) (by norm_num) (band_mono (by norm_num) hb)
  exact ⟨r, hr, hn, hb⟩

theorem div_fin_of_ne {a b : ℚ} (hb : b ≠ 0) : (fin a).div (fin b) = ofRat (a / b) := by
  simp [Dbl.div, hb]

theorem mul_fin (a b : ℚ) : (fin a).mul (fin b) = ofRat (a * b) := rfl

/-- With a zero wrapped busy delta the value is `0.0`. -/
theorem getCpuUsage_value_of_zero_sum (st : CpuStatics) (os : CpuProbe)
    (h : st.first = false) (hw : sub64 os.ftime st.lastCPU ≠ 0) (hn : st.numProcessors ≠ 0)
    (hs : add64 (sub64 os.fsys st.lastSysCPU) (sub64 os.fuser st.lastUserCPU) = 0) :
    (getCpuUsage st os).1 = fin 0 := by
  obtain ⟨W, hW, hWn, hWb⟩ := ofNat_near hw (sub64_lt _ _)
  have hW0 : W ≠ 0 := ne_of_gt (near_pos hWn (band_pos hWb))
  have hn2 : ((st.numProcessors : Int) : ℚ) ≠ 0 := by exact_mod_cast hn
  rw [getCpuUsage_value st os h, hs, ofNat_zero, hW, div_fin_of_ne hW0, zero_div, ofRat_zero,
    Dbl.ofInt, div_fin_of_ne hn2, zero_div, ofRat_zero, mul_fin, zero_mul, ofRat_zero]

/-- With non-zero wrapped deltas and a processor count of an `int`, the value is finite
and five roundings away from the exact quotient of the wrapped deltas. -/
theorem getCpuUsage_near (st : CpuStatics) (os : CpuProbe) (h : st.first = false)
    (hn : 0 < st.numProcessors) (hn2 : st.numProcessors < 2 ^ 31)
    (hw : sub64 os.ftime st.lastCPU ≠ 0)
    (hs : add64 (sub64 os.fsys st.lastSysCPU) (sub64 os.fuser st.lastUserCPU) ≠ 0) :
    ∃ r : ℚ, (getCpuUsage st os).1 = fin r ∧
      Near 5 r
        ((add64 (sub64 os.fsys st.lastSysCPU) (sub64 os.fuser st.lastUserCPU) : ℚ)
          / (sub64 os.ftime st.lastCPU : ℚ) / (st.numProcessors : ℚ) * 100) := by
  obtain ⟨S, hS, hSn, hSb⟩ := ofNat_near hs (add64_lt _ _)
  obtain ⟨W, hW, hWn, hWb⟩ := ofNat_near hw (sub64_lt _ _)
  have hW0 : W ≠ 0 := ne_of_gt (near_pos hWn (band_pos hWb))
  -- first division
  have hb1 := band_div hSb hWb
  obtain ⟨X1, hX1, hX1n⟩ := near_round (near_div hSn hWn (band_pos hSb) (band_pos hWb))
    (by norm_num) (band_mono (by norm_num) hb1)
  -- division by the processor count
  have hnb : Band 31 ((st.numProcessors : Int) : ℚ) := by
    obtain ⟨m, hm⟩ := Int.eq_ofNat_of_zero_le hn.le
    rw [hm]
    rw [hm] at hn hn2
    have h1 : 0 < m := by exact_mod_cast hn
    have h2 : m < 2 ^ 31 := by exact_mod_cast hn2
    simpa using band_natCast h1 h2
  have hnq : ((st.numProcessors : Int) : ℚ) ≠ 0 := ne_of_gt (band_pos hnb)
  have hb2 := band_div hb1 hnb
  obtain ⟨X2, hX2, hX2n⟩ := near_round
    (near_div hX1n (near_refl _) (band_pos hb1) (band_pos hnb)) (by norm_num)
    (band_mono (by norm_num) hb2)
  -- multiplication by 100
  have hb3 := band_mul_hundred hb2
  obtain ⟨X3, hX3, hX3n⟩ := near_round (near_mul_const hX2n 100 (by norm_num)) (by norm_num)
    (band_mono (by norm_num) hb3)
  refine ⟨X3, ?_, hX3n⟩
  rw [getCpuUsage_value st os h, hS, hW, div_fin_of_ne hW0, hX1, Dbl.ofInt, div_fin_of_ne hnq,
    hX2, mul_fin, hX3]

/-- Value of a non-first call whose wrapped wall delta is zero, with a positive processor
count: NaN when the wrapped sum of the kernel and user deltas is zero, positive infinity
otherwise. -/
theorem getCpuUsage_value_of_zero_wall (st : CpuStatics) (os : CpuProbe)
    (h : st.first = false) (hw : sub64 os.ftime st.lastCPU = 0) (hn : 0 < st.numProcessors) :
    (getCpuUsage st os).1 =
      if add64 (sub64 os.fsys st.lastSysCPU) (sub64 os.fuser st.lastUserCPU) = 0 then nan
      else pinf := by
  have hn2 : (0 : ℚ) ≤ ((st.numProcessors : Int) : ℚ) := by exact_mod_cast hn.le
  rw [getCpuUsage_value st os h, hw, ofNat_zero]
  by_cases hs : add64 (sub64 os.fsys st.lastSysCPU) (sub64 os.fuser st.lastUserCPU) = 0
  · rw [hs, ofNat_zero, if_pos rfl]
    simp [Dbl.div, Dbl.mul, Dbl.ofInt]
  · obtain ⟨S, hS, hSn, hSb⟩ := ofNat_near hs (add64_lt _ _)
    have hS0 : 0 < S := near_pos hSn (band_pos hSb)
    rw [hS, if_neg hs]
    simp [Dbl.div, Dbl.mul, Dbl.ofInt, ne_of_gt hS0, hS0, hn2]

theorem ofRat_notNegative {q : ℚ} (hq : 0 ≤ q) : (ofRat q).NotNegative := by
  rcases ofRat_nonneg hq with h | ⟨r, h, hr⟩
  · rw [h]; trivial
  · rw [h]; exact hr

theorem div_notNegative {a b : Dbl} (ha : a.NotNegative) (hb : b.NotNegative) :
    (a.div b).NotNegative := by
  cases a with
  | fin x =>
    cases b with
    | fin y =>
      simp only [NotNegative] at ha hb
      simp only [Dbl.div]
      split_ifs with h1 h2 h3
      · trivial
      · trivial
      · exact absurd (lt_of_le_of_ne ha (Ne.symm h2)) h3
      · exact ofRat_notNegative (div_nonneg ha hb)
    | pinf => simp [Dbl.div, NotNegative]
    | ninf => simp [NotNegative] at hb
    | nan => simp [Dbl.div, NotNegative]
  | pinf =>
    cases b with
    | fin y =>
      simp only [NotNegative] at hb
      simp [Dbl.div, hb, NotNegative]
    | pinf => simp [Dbl.div, NotNegative]
    | ninf => simp [NotNegative] at hb
    | nan => simp [Dbl.div, NotNegative]
  | ninf => simp [NotNegative] at ha
  | nan => simp [Dbl.div, NotNegative]

theorem mul_hundred_notNegative {a : Dbl} (ha : a.NotNegative) :
    (a.mul (fin 100)).NotNegative := by
  cases a with
  | fin x =>
    simp only [NotNegative] at ha
    exact ofRat_notNegative (mul_nonneg ha (by norm_num))
  | pinf => simp [Dbl.mul, NotNegative]
  | ninf => simp [NotNegative] at ha
  | nan => simp [Dbl.mul, NotNegative]

/-- A call with a positive stored processor count never returns a negative value. -/
theorem getCpuUsage_notNegative (st : CpuStatics) (os : CpuProbe)
    (hn : st.first = false → 0 < st.numProcessors) : (getCpuUsage st os).1.NotNegative := by
  cases hf : st.first with
  | true => simp [getCpuUsage, hf, NotNegative]
  | false =>
    have hpos : (0 : ℚ) ≤ ((st.numProcessors : Int) : ℚ) := by exact_mod_cast (hn hf).le
    rw [getCpuUsage_value st os hf]
    refine mul_hundred_notNegative (div_notNegative (div_notNegative ?_ ?_) ?_)
    · exact ofRat_notNegative (Nat.cast_nonneg _)
    · exact ofRat_notNegative (Nat.cast_nonneg _)
    · exact hpos

/-- Outputs of a run are never negative when the processor count in force is positive. -/
theorem cpuOutputs_notNegative (ps : List CpuProbe) :
    ∀ st : CpuStatics, (st.first = false → 0 < st.numProcessors) →
      (st.first = true → ∀ p ∈ ps.head?, 0 < dwordToInt p.dwNumberOfProcessors) →
      ∀ v ∈ cpuOutputs st ps, v.NotNegative := by
  induction ps with
  | nil => intro st _ _ v hv; simp [cpuOutputs] at hv
  | cons os rest ih =>
    intro st h1 h2 v hv
    simp only [cpuOutputs, List.mem_cons] at hv
    rcases hv with hv | hv
    · rw [hv]; exact getCpuUsage_notNegative st os h1
    · refine ih (getCpuUsage st os).2 ?_ ?_ v hv
      · intro _
        cases hf : st.first with
        | true =>
          have := h2 hf os (by simp)
          simpa [getCpuUsage, hf] using this
        | false => simpa [getCpuUsage, hf] using h1 hf
      · intro hc
        cases hf : st.first <;> simp [getCpuUsage, hf] at hc

/-- C3: the first call of `getCpuUsage` after static initialisation returns exactly `0.0`
for every sample, stores the wall, kernel and user counters of that sample as the last
ones, and clears the first-call flag. -/
theorem getCpuUsage_first_call (os : CpuProbe) :
    (getCpuUsage CpuStatics.initial os).1 = fin 0 ∧
      (getCpuUsage CpuStatics.initial os).2.lastCPU = os.ftime ∧
      (getCpuUsage CpuStatics.initial os).2.lastSysCPU = os.fsys ∧
      (getCpuUsage CpuStatics.initial os).2.lastUserCPU = os.fuser ∧
      (getCpuUsage CpuStatics.initial os).2.first = false := by
  simp [getCpuUsage, CpuStatics.initial]

/-- C1 (as stated, refuted): on one processor the samples `(0, 0, 0)`, `(1000, 1000, 1000)`
are well formed, and the second call returns `200.0`, outside `[0, 100]`. -/
theorem cpuOutputs_overload_exceeds_100 :
    (∀ p ∈ overloadProbes, p.WellFormed ∧ 0 < dwordToInt p.dwNumberOfProcessors) ∧
      cpuOutputs CpuStatics.initial overloadProbes = [fin 0, fin 200] ∧
      ¬ (fin 200).InRange 0 100 := by
  refine ⟨?_, by decide!, ?_⟩
  · simp [overloadProbes, CpuProbe.WellFormed, U64, dwordToInt]
  · simp [InRange]
    norm_num

/-- C1 (amended): with a positive processor count, no call in any run from the initial
statics returns a negative value (each value is a finite number at least `0`, positive
infinity or NaN). Nothing clamps the value to 100. A non-first call with a non-zero wrapped
wall delta returns a finite value in `[0, 100]` when its wrapped kernel-plus-user delta is
at most the wall delta times the processor count and both wrapped deltas are below `2^53`,
so that their conversion to `double` is exact. -/
theorem cpuOutputs_notNegative_and_bounded :
    (∀ ps : List CpuProbe, (∀ p ∈ ps.head?, 0 < dwordToInt p.dwNumberOfProcessors) →
        ∀ v ∈ cpuOutputs CpuStatics.initial ps, v.NotNegative) ∧
      (∀ (st : CpuStatics) (os : CpuProbe), st.first = false → 0 < st.numProcessors →
        st.numProcessors < 2 ^ 31 → sub64 os.ftime st.lastCPU ≠ 0 →
        ((add64 (sub64 os.fsys st.lastSysCPU) (sub64 os.fuser st.lastUserCPU) : Nat) : Int) ≤
          (sub64 os.ftime st.lastCPU : Nat) * st.numProcessors →
        add64 (sub64 os.fsys st.lastSysCPU) (sub64 os.fuser st.lastUserCPU) < 2 ^ 53 →
        sub64 os.ftime st.lastCPU < 2 ^ 53 →
        (getCpuUsage st os).1.InRange 0 100) := by
  refine ⟨?_, ?_⟩
  · intro ps hps
    exact cpuOutputs_notNegative ps CpuStatics.initial (by simp [CpuStatics.initial])
      (fun _ => hps)
  · intro st os hf hn hn2 hw hle hs53 hw53
    obtain ⟨m, hm⟩ := Int.eq_ofNat_of_zero_le hn.le
    rw [hm] at hn hn2 hle
    have hm0 : 0 < m := by exact_mod_cast hn
    have hm31 : m < 2 ^ 31 := by exact_mod_cast hn2
    have hmq : (0 : ℚ) < (m : ℚ) := by exact_mod_cast hm0
    have hwq : (0 : ℚ) < ((sub64 os.ftime st.lastCPU : Nat) : ℚ) := by
      exact_mod_cast Nat.pos_of_ne_zero hw
    have hleq : ((add64 (sub64 os.fsys st.lastSysCPU) (sub64 os.fuser st.lastUserCPU) : Nat) : ℚ)
        ≤ ((sub64 os.ftime st.lastCPU : Nat) : ℚ) * (m : ℚ) := by
      exact_mod_cast hle
    have hsq : (0 : ℚ) ≤
        ((add64 (sub64 os.fsys st.lastSysCPU) (sub64 os.fuser st.lastUserCPU) : Nat) : ℚ) :=
      Nat.cast_nonneg _
    -- quotient by the wall delta: at most the processor count
    obtain ⟨r1, hr1, h10, h1m⟩ := ofRat_le_nat
      (x := ((add64 (sub64 os.fsys st.lastSysCPU) (sub64 os.fuser st.lastUserCPU) : Nat) : ℚ) /
        ((sub64 os.ftime st.lastCPU : Nat) : ℚ)) m (by omega) (div_nonneg hsq hwq.le)
      (by rw [div_le_iff₀ hwq]; linarith)
    -- quotient by the processor count: at most one
    obtain ⟨r2, hr2, h20, h21⟩ := ofRat_le_nat (x := r1 / (m : ℚ)) 1 (by norm_num)
      (div_nonneg h10 hmq.le) (by rw [div_le_iff₀ hmq]; simpa using h1m)
    -- times one hundred
    obtain ⟨r3, hr3, h30, h3⟩ := ofRat_le_nat (x := r2 * 100) 100 (by norm_num)
      (mul_nonneg h20 (by norm_num)) (by norm_num at h21 ⊢; linarith)
    have hv : (getCpuUsage st os).1 = fin r3 := by
      rw [getCpuUsage_value st os hf, Dbl.ofNat, Dbl.ofNat, ofRat_natCast _ hs53.le,
        ofRat_natCast _ hw53.le, div_fin_of_ne (ne_of_gt hwq), hr1, hm, Dbl.ofInt,
        Int.cast_natCast, div_fin_of_ne (ne_of_gt hmq), hr2, mul_fin, hr3]
    rw [hv]
    exact ⟨h30, by simpa using h3⟩

/-- Witness of the amended C1: the run of `steadyProbes` and its second call. -/
theorem cpuOutputs_notNegative_and_bounded_witness :
    (∀ v ∈ cpuOutputs CpuStatics.initial steadyProbes, v.NotNegative) ∧
      (getCpuUsage ⟨0, 0, 0, 4, false⟩ ⟨4, 1000, 400, 600⟩).1.InRange 0 100 :=
  ⟨cpuOutputs_notNegative_and_bounded.1 steadyProbes
      (by simp [steadyProbes, dwordToInt]),
    cpuOutputs_notNegative_and_bounded.2 ⟨0, 0, 0, 4, false⟩ ⟨4, 1000, 400, 600⟩ rfl
      (by decide) (by decide) (by simp [sub64, U64]) (by simp [sub64, add64, U64])
      (by simp [sub64, add64, U64]) (by simp [sub64, U64])⟩

/-- Why the bound of 100 needs deltas below `2^53`: from the stored sample `(0, 0, 0)` on
three processors the sample `(2^53 + 1, 3 · 2^53 + 3, 0)` has a busy delta of exactly three
times the wall delta, the conversion of the wall delta rounds down to `2^53`, and the call
returns `100 + 2^-45` (100.00000000000003). -/
theorem getCpuUsage_large_delta_above_100 :
    ((add64 (sub64 (3 * 2 ^ 53 + 3) 0) (sub64 0 0) : Nat) : Int) =
        (sub64 (2 ^ 53 + 1) 0 : Nat) * 3 ∧
      (getCpuUsage ⟨0, 0, 0, 3, false⟩ ⟨3, 2 ^ 53 + 1, 3 * 2 ^ 53 + 3, 0⟩).1 =
        fin (100 + 1 / 2 ^ 45) := by
  refine ⟨by decide, by decide!⟩

/-- C2 (as stated, refuted), on two inputs that meet every hypothesis of the claim.
Rounding: from the stored sample `(0, 0, 0)` on one processor the sample `(3, 1, 0)` makes
the call return the double `2345624805922133 / 2^46` (33.33333333333333), not `100 / 3`.
Wrap-around: from `(0, 0, 0)` on two processors the sample `(2^64 - 1, 2^63, 2^63)` has
`Δsys + Δuser = 2^64`, the 64-bit sum wraps to zero and the call returns `0.0`, while the
formula of the claim is above 49. -/
theorem getCpuUsage_not_exactly_specPercent :
    (oneCpuStatics.first = false ∧ thirdProbe.WellFormed ∧ 0 < oneCpuStatics.numProcessors ∧
      oneCpuStatics.lastCPU < thirdProbe.ftime ∧ oneCpuStatics.lastSysCPU ≤ thirdProbe.fsys ∧
      oneCpuStatics.lastUserCPU ≤ thirdProbe.fuser ∧
      (((thirdProbe.fsys - oneCpuStatics.lastSysCPU) +
          (thirdProbe.fuser - oneCpuStatics.lastUserCPU) : Nat) : Int) ≤
        ((thirdProbe.ftime - oneCpuStatics.lastCPU : Nat) : Int) * oneCpuStatics.numProcessors ∧
      specPercent oneCpuStatics thirdProbe = 100 / 3 ∧
      (getCpuUsage oneCpuStatics thirdProbe).1 = fin (2345624805922133 / 2 ^ 46) ∧
      (getCpuUsage oneCpuStatics thirdProbe).1 ≠ fin (specPercent oneCpuStatics thirdProbe)) ∧
    (zeroStatics.first = false ∧ wrapProbe.WellFormed ∧ 0 < zeroStatics.numProcessors ∧
      zeroStatics.lastCPU < wrapProbe.ftime ∧ zeroStatics.lastSysCPU ≤ wrapProbe.fsys ∧
      zeroStatics.lastUserCPU ≤ wrapProbe.fuser ∧
      (((wrapProbe.fsys - zeroStatics.lastSysCPU) + (wrapProbe.fuser - zeroStatics.lastUserCPU)
          : Nat) : Int) ≤
        ((wrapProbe.ftime - zeroStatics.lastCPU : Nat) : Int) * zeroStatics.numProcessors ∧
      (getCpuUsage zeroStatics wrapProbe).1 = fin 0 ∧
      49 < specPercent zeroStatics wrapProbe) := by
  have hs1 : specPercent oneCpuStatics thirdProbe = 100 / 3 := by
    simp [specPercent, oneCpuStatics, thirdProbe]
  have hv1 : (getCpuUsage oneCpuStatics thirdProbe).1 = fin (2345624805922133 / 2 ^ 46) := by
    decide!
  have hv2 : (getCpuUsage zeroStatics wrapProbe).1 = fin 0 := by decide!
  refine ⟨⟨rfl, ?_, by decide, by decide, by decide, by decide, by decide, hs1, hv1, ?_⟩,
    ⟨rfl, ?_, by decide, ?_, ?_, ?_, ?_, hv2, ?_⟩⟩
  · simp [thirdProbe, CpuProbe.WellFormed, U64]
  · rw [hv1, hs1]
    intro h
    injection h with h
    norm_num at h
  · simp [wrapProbe, CpuProbe.WellFormed, U64]
  · simp [zeroStatics, wrapProbe]
  · simp [zeroStatics]
  · simp [zeroStatics]
  · simp [zeroStatics, wrapProbe]
  · simp [specPercent, zeroStatics, wrapProbe]
    norm_num

/-- C2 (amended): for a non-first call with a processor count of an `int` (positive, below
`2^31`) whose sample is well formed and not smaller than the stored one in any component,
with a positive wall delta, `Δsys + Δuser ≤ Δwall × numProcessors` and, in addition,
`Δsys + Δuser < 2^64` (the 64-bit sum does not wrap), the call returns a finite double
within `10^-9` of `(Δsys + Δuser) × 100 / (Δwall × numProcessors)`; it is that number
rounded at each conversion and operation, not the exact rational. The samples `(0,0,0)`,
`(1000,400,600)`, `(2000,800,1200)`, `(3000,1200,1800)` on four processors yield exactly
`0`, `25`, `25`, `25`. -/
theorem getCpuUsage_near_specPercent :
    (∀ (st : CpuStatics) (os : CpuProbe), st.first = false → 0 < st.numProcessors →
        st.numProcessors < 2 ^ 31 →
        os.WellFormed → st.lastCPU < os.ftime → st.lastSysCPU ≤ os.fsys →
        st.lastUserCPU ≤ os.fuser →
        (((os.fsys - st.lastSysCPU) + (os.fuser - st.lastUserCPU) : Nat) : Int) ≤
          ((os.ftime - st.lastCPU : Nat) : Int) * st.numProcessors →
        (os.fsys - st.lastSysCPU) + (os.fuser - st.lastUserCPU) < U64 →
        ∃ r : ℚ, (getCpuUsage st os).1 = fin r ∧ |r - specPercent st os| ≤ 1 / 10 ^ 9) ∧
      cpuOutputs CpuStatics.initial steadyProbes = [fin 0, fin 25, fin 25, fin 25] := by
  refine ⟨?_, by decide!⟩
  intro st os hf hn hn2 hwf hw hs hu hle hsum
  obtain ⟨h1, h2, h3, _⟩ := hwf
  have e1 : sub64 os.ftime st.lastCPU = os.ftime - st.lastCPU := sub64_of_le h1 hw.le
  have e2 : sub64 os.fsys st.lastSysCPU = os.fsys - st.lastSysCPU := sub64_of_le h2 hs
  have e3 : sub64 os.fuser st.lastUserCPU = os.fuser - st.lastUserCPU := sub64_of_le h3 hu
  have e4 : add64 (sub64 os.fsys st.lastSysCPU) (sub64 os.fuser st.lastUserCPU) =
      (os.fsys - st.lastSysCPU) + (os.fuser - st.lastUserCPU) := by
    rw [e2, e3, add64_of_lt hsum]
  have hw0 : sub64 os.ftime st.lastCPU ≠ 0 := by rw [e1]; omega
  have hnq : (0 : ℚ) < ((st.numProcessors : Int) : ℚ) := by exact_mod_cast hn
  have hwq : (0 : ℚ) < ((os.ftime - st.lastCPU : Nat) : ℚ) := by
    have : 0 < os.ftime - st.lastCPU := by omega
    exact_mod_cast this
  have hleq : (((os.fsys - st.lastSysCPU) + (os.fuser - st.lastUserCPU) : Nat) : ℚ) ≤
      ((os.ftime - st.lastCPU : Nat) : ℚ) * ((st.numProcessors : Int) : ℚ) := by
    exact_mod_cast hle
  -- the exact quotient is the formula of the specification
  have hE : (((os.fsys - st.lastSysCPU) + (os.fuser - st.lastUserCPU) : Nat) : ℚ) /
      ((os.ftime - st.lastCPU : Nat) : ℚ) / ((st.numProcessors : Int) : ℚ) * 100 =
      specPercent st os := by
    simp only [specPercent]
    rw [Nat.cast_add, Nat.cast_sub hw.le, Nat.cast_sub hs, Nat.cast_sub hu, div_div,
      div_mul_eq_mul_div]
  have hE0 : 0 ≤ specPercent st os := by
    rw [← hE]
    have : (0 : ℚ) ≤ (((os.fsys - st.lastSysCPU) + (os.fuser - st.lastUserCPU) : Nat) : ℚ) :=
      Nat.cast_nonneg _
    positivity
  have hE100 : specPercent st os ≤ 100 := by
    rw [← hE, div_div, div_mul_eq_mul_div, div_le_iff₀ (mul_pos hwq hnq)]
    nlinarith
  by_cases hz : (os.fsys - st.lastSysCPU) + (os.fuser - st.lastUserCPU) = 0
  · refine ⟨0, getCpuUsage_value_of_zero_sum st os hf hw0 (ne_of_gt hn) (by rw [e4, hz]), ?_⟩
    rw [← hE, hz]
    norm_num
  · obtain ⟨r, hr, hnear⟩ := getCpuUsage_near st os hf hn hn2 hw0 (by rw [e4]; exact hz)
    rw [e4, e1, hE] at hnear
    exact ⟨r, hr, near_abs_sub hnear (by norm_num) hE0 hE100⟩

/-- Witness of the amended C2: the call with a third of one processor busy returns the
double `2345624805922133 / 2^46`, which is not `100 / 3` but lies within `10^-9` of it. -/
theorem getCpuUsage_near_specPercent_witness :
    (getCpuUsage oneCpuStatics thirdProbe).1 = fin (2345624805922133 / 2 ^ 46) ∧
      |(2345624805922133 / 2 ^ 46 : ℚ) - specPercent oneCpuStatics thirdProbe| ≤ 1 / 10 ^ 9 := by
  obtain ⟨r, hr, hb⟩ := getCpuUsage_near_specPercent.1 oneCpuStatics thirdProbe rfl (by decide)
    (by decide) (by simp [thirdProbe, CpuProbe.WellFormed, U64]) (by decide) (by decide)
    (by decide) (by decide) (by simp [U64, oneCpuStatics, thirdProbe])
  have hv : (getCpuUsage oneCpuStatics thirdProbe).1 = fin (2345624805922133 / 2 ^ 46) := by
    decide!
  have hrv : r = 2345624805922133 / 2 ^ 46 := by
    rw [hv] at hr
    injection hr with h
    exact h.symm
  rw [hrv] at hb
  exact ⟨hv, hb⟩

/-- C4 (as stated, refuted): in the run `(0,0,0)`, `(1000,500,500)`, `(2000,100,100)`,
`(3000,300,300)` on four processors the third sample has kernel and user counters below the
stored ones (`100 < 500`), yet the third call returns `461168601842738816.0`, not `0.0`:
the unsigned differences wrap instead of being detected as negative. -/
theorem cpuOutputs_reset_not_zero :
    (cpuRun CpuStatics.initial (resetProbes.take 2)).lastSysCPU = 500 ∧
      (cpuRun CpuStatics.initial (resetProbes.take 2)).lastUserCPU = 500 ∧
      cpuOutputs CpuStatics.initial resetProbes =
        [fin 0, fin 25, fin 461168601842738816, fin 10] ∧
      cpuOutputs CpuStatics.initial resetProbes ≠ [fin 0, fin 25, fin 0, fin 10] := by
  have hv : cpuOutputs CpuStatics.initial resetProbes =
      [fin 0, fin 25, fin 461168601842738816, fin 10] := by decide!
  refine ⟨?_, ?_, hv, ?_⟩
  · simp [cpuRun, getCpuUsage, CpuStatics.initial, resetProbes]
  · simp [cpuRun, getCpuUsage, CpuStatics.initial, resetProbes]
  · rw [hv]
    simp

/-- C4 (amended): every non-first call in which the kernel, user or wall counter of the
new sample is smaller than the stored one replaces the stored sample by the new one, so the
next call is computed against the new sample. The value it returns is not forced to `0.0`:
the unsigned differences wrap modulo `2^64`, and with a processor count of an `int`
(positive, below `2^31`) and a non-zero wrapped wall delta the call returns a finite
non-negative double that is `0.0` only when the wrapped sum of the kernel and user deltas
is zero. The samples `(0,0,0)`, `(1000,500,500)`, `(2000,100,100)`, `(3000,300,300)` on
four processors yield `0`, `25`, `461168601842738816`, `10`. -/
theorem getCpuUsage_negative_delta :
    (∀ (st : CpuStatics) (os : CpuProbe), st.first = false →
        (os.fsys < st.lastSysCPU ∨ os.fuser < st.lastUserCPU ∨ os.ftime < st.lastCPU) →
        (getCpuUsage st os).2 =
          { lastCPU := os.ftime, lastSysCPU := os.fsys, lastUserCPU := os.fuser
            numProcessors := st.numProcessors, first := false }) ∧
      (∀ (st : CpuStatics) (os : CpuProbe), st.first = false →
        (os.fsys < st.lastSysCPU ∨ os.fuser < st.lastUserCPU ∨ os.ftime < st.lastCPU) →
        0 < st.numProcessors → st.numProcessors < 2 ^ 31 →
        sub64 os.ftime st.lastCPU ≠ 0 →
        (∃ r : ℚ, (getCpuUsage st os).1 = fin r ∧ 0 ≤ r) ∧
          ((getCpuUsage st os).1 = fin 0 ↔
            add64 (sub64 os.fsys st.lastSysCPU) (sub64 os.fuser st.lastUserCPU) = 0)) ∧
      cpuOutputs CpuStatics.initial resetProbes =
        [fin 0, fin 25, fin 461168601842738816, fin 10] := by
  refine ⟨?_, ?_, by decide!⟩
  · intro st os hf _
    exact getCpuUsage_statics_of_not_first st os hf
  · intro st os hf _ hn hn2 hw
    by_cases hs : add64 (sub64 os.fsys st.lastSysCPU) (sub64 os.fuser st.lastUserCPU) = 0
    · have hv := getCpuUsage_value_of_zero_sum st os hf hw (ne_of_gt hn) hs
      exact ⟨⟨0, hv, le_rfl⟩, fun _ => hs, fun _ => hv⟩
    · obtain ⟨r, hr, hnear⟩ := getCpuUsage_near st os hf hn hn2 hw hs
      have hsq : (0 : ℚ) <
          ((add64 (sub64 os.fsys st.lastSysCPU) (sub64 os.fuser st.lastUserCPU) : Nat) : ℚ) := by
        exact_mod_cast Nat.pos_of_ne_zero hs
      have hwq : (0 : ℚ) < ((sub64 os.ftime st.lastCPU : Nat) : ℚ) := by
        exact_mod_cast Nat.pos_of_ne_zero hw
      have hnq : (0 : ℚ) < ((st.numProcessors : Int) : ℚ) := by exact_mod_cast hn
      have hr0 : 0 < r := near_pos hnear (by positivity)
      refine ⟨⟨r, hr, hr0.le⟩, ?_, fun h => absurd h hs⟩
      intro h
      rw [hr] at h
      injection h with h
      exact absurd h (ne_of_gt hr0)

/-- Witness of the amended C4: the third call of the reset run. -/
theorem getCpuUsage_negative_delta_witness :
    (getCpuUsage ⟨1000, 500, 500, 4, false⟩ ⟨4, 2000, 100, 100⟩).2 = ⟨2000, 100, 100, 4, false⟩ ∧
      (getCpuUsage ⟨1000, 500, 500, 4, false⟩ ⟨4, 2000, 100, 100⟩).1 ≠ fin 0 := by
  have h1 := getCpuUsage_negative_delta.1 ⟨1000, 500, 500, 4, false⟩ ⟨4, 2000, 100, 100⟩ rfl
    (Or.inl (by decide))
  have h2 := getCpuUsage_negative_delta.2.1 ⟨1000, 500, 500, 4, false⟩ ⟨4, 2000, 100, 100⟩ rfl
    (Or.inl (by decide)) (by decide) (by decide) (by simp [sub64, U64])
  refine ⟨h1, ?_⟩
  intro h0
  have := h2.2.mp h0
  simp [sub64, add64, U64] at this

/-- C5 (as stated, refuted): in the run `(0,0,0)`, `(1000,400,600)`, `(1000,500,700)` on four
processors the third sample has the wall counter of the second; the second call returns
`25.0` and the third divides by the zero wall delta and returns positive infinity, not the
previous value. -/
theorem cpuOutputs_same_tick_not_previous :
    (cpuRun CpuStatics.initial (sameTickProbes.take 2)).lastCPU = 1000 ∧
      cpuOutputs CpuStatics.initial sameTickProbes = [fin 0, fin 25, pinf] ∧
      pinf ≠ fin 25 := by
  refine ⟨?_, by decide!, by simp⟩
  simp [cpuRun, getCpuUsage, CpuStatics.initial, sameTickProbes]

/-- C5 (amended): a non-first call whose wall counter equals the stored wall counter, with
a positive processor count, does divide by the zero wall delta; it returns NaN when the
wrapped sum of the kernel and user deltas is zero and positive infinity otherwise, never a
finite value, and it replaces the stored sample by the new one. No previous value is kept. -/
theorem getCpuUsage_zero_wall_delta (st : CpuStatics) (os : CpuProbe)
    (hf : st.first = false) (hn : 0 < st.numProcessors) (hw : os.ftime = st.lastCPU) :
    Dbl.ofNat (sub64 os.ftime st.lastCPU) = fin 0 ∧
      (getCpuUsage st os).1 =
        (if add64 (sub64 os.fsys st.lastSysCPU) (sub64 os.fuser st.lastUserCPU) = 0 then nan
          else pinf) ∧
      (∀ q : ℚ, (getCpuUsage st os).1 ≠ fin q) ∧
      (getCpuUsage st os).2 =
        { lastCPU := os.ftime, lastSysCPU := os.fsys, lastUserCPU := os.fuser
          numProcessors := st.numProcessors, first := false } := by
  have hz : sub64 os.ftime st.lastCPU = 0 := by rw [hw]; exact sub64_self
  have hv := getCpuUsage_value_of_zero_wall st os hf hz hn
  refine ⟨by rw [hz, ofNat_zero], hv, ?_, getCpuUsage_statics_of_not_first st os hf⟩
  intro q
  rw [hv]
  split <;> simp

/-- Witness of the amended C5: a second call with the very sample of the first. -/
theorem getCpuUsage_zero_wall_delta_witness :
    (getCpuUsage ⟨1000, 400, 600, 4, false⟩ ⟨4, 1000, 400, 600⟩).1 = nan := by
  have h := (getCpuUsage_zero_wall_delta ⟨1000, 400, 600, 4, false⟩ ⟨4, 1000, 400, 600⟩ rfl
    (by decide) rfl).2.1
  simpa [sub64, add64, U64] using h

/-! ## The rolling series -/

theorem updateData_timeData (os : TickProbe) (a : App) :
    (updateData os a).window.timeData =
      if a.window.timeData.length + 1 > a.window.maxDataPoints then
        (a.window.timeData ++ [a.window.currentTime]).tail
      else a.window.timeData ++ [a.window.currentTime] := by
  unfold updateData
  simp only [List.length_append, List.length_singleton]
  split <;> rfl

theorem updateData_cpuData (os : TickProbe) (a : App) :
    (updateData os a).window.cpuData =
      if a.window.timeData.length + 1 > a.window.maxDataPoints then
        (a.window.cpuData ++ [(getCpuUsage a.cpuStatics os.cpu).1]).tail
      else a.window.cpuData ++ [(getCpuUsage a.cpuStatics os.cpu).1] := by
  unfold updateData
  simp only [List.length_append, List.length_singleton]
  split <;> rfl

theorem updateData_memData (os : TickProbe) (a : App) :
    (updateData os a).window.memData =
      if a.window.timeData.length + 1 > a.window.maxDataPoints then
        (a.window.memData ++ [memPercentOf os.mem]).tail
      else a.window.memData ++ [memPercentOf os.mem] := by
  unfold updateData
  simp only [List.length_append, List.length_singleton]
  split <;> rfl

theorem updateData_maxDataPoints (os : TickProbe) (a : App) :
    (updateData os a).window.maxDataPoints = a.window.maxDataPoints := by
  unfold updateData
  simp only [List.length_append, List.length_singleton]
  split <;> rfl

theorem updateData_currentTime (os : TickProbe) (a : App) :
    (updateData os a).window.currentTime = a.window.currentTime.add (fin 1) := by
  unfold updateData
  simp only [List.length_append, List.length_singleton]
  split <;> rfl

/-- Below `2^53` the time advances by exactly one. -/
theorem add_one_of_lt (k : ℕ) (hk : k < 2 ^ 53) :
    (fin (k : ℚ)).add (fin 1) = fin ((k + 1 : ℕ) : ℚ) := by
  have : (k : ℚ) + 1 = ((k + 1 : ℕ) : ℚ) := by push_cast; rfl
  show ofRat ((k : ℚ) + 1) = _
  rw [this]
  exact ofRat_natCast (k + 1) (by omega)

/-- At `2^53` adding one is absorbed: `2^53 + 1` is a tie and rounds to the even `2^53`. -/
theorem add_one_absorbed :
    (fin ((2 ^ 53 : ℕ) : ℚ)).add (fin 1) = fin ((2 ^ 53 : ℕ) : ℚ) := by decide!

theorem lt_fin_of_le {t : Dbl} {p q : ℚ} (h : Dbl.le t (fin p) = true) (hpq : p < q) :
    Dbl.lt t (fin q) = true := by
  cases t with
  | fin x =>
    simp only [Dbl.le, Dbl.lt, decide_eq_true_eq] at h ⊢
    linarith
  | pinf => simp [Dbl.le] at h
  | ninf => simp [Dbl.lt]
  | nan => simp [Dbl.le] at h

theorem windowInv_initial : WindowInv App.initial := by
  refine ⟨rfl, ⟨0, by norm_num, by simp [App.initial], ?_, ?_⟩, ?_, ?_, rfl, rfl⟩
  · simp [App.initial]
  · intro _
    simp [StrictlyIncreasing, App.initial]
  · simp [NonDecreasing, App.initial]
  · simp [App.initial]

theorem windowInv_clearChart (a : App) (h : WindowInv a) : WindowInv (clearChart a) := by
  refine ⟨h.1, ⟨0, by norm_num, by simp [clearChart], ?_, ?_⟩, ?_, ?_, rfl, rfl⟩
  · simp [clearChart]
  · intro _
    simp [StrictlyIncreasing, clearChart]
  · simp [NonDecreasing, clearChart]
  · simp [clearChart]

theorem windowInv_updateData (os : TickProbe) (a : App) (h : WindowInv a) :
    WindowInv (updateData os a) := by
  obtain ⟨hmax, ⟨k, hk, hcur, hle, hstrict⟩, hnd, hlen, hcpu, hmem⟩ := h
  -- the vector right after the append
  have hnd0 : NonDecreasing (a.window.timeData ++ [a.window.currentTime]) := by
    unfold NonDecreasing at *
    rw [List.pairwise_append]
    refine ⟨hnd, by simp, ?_⟩
    intro x hx y hy
    rw [List.mem_singleton] at hy
    rw [hy, hcur]
    exact hle x hx
  have hsub : ∀ l : List Dbl, (updateData os a).window.timeData = l →
      l.Sublist (a.window.timeData ++ [a.window.currentTime]) := by
    intro l hl
    rw [← hl, updateData_timeData]
    split
    · exact List.tail_sublist _
    · exact List.Sublist.refl _
  have hs := hsub _ rfl
  have hlen' : (updateData os a).window.timeData.length ≤ 60 := by
    rw [updateData_timeData, hmax]
    split
    · simp; exact hlen
    · simp; omega
  have hcpu' : (updateData os a).window.cpuData.length =
      (updateData os a).window.timeData.length := by
    rw [updateData_timeData, updateData_cpuData]
    split <;> simp [hcpu]
  have hmem' : (updateData os a).window.memData.length =
      (updateData os a).window.timeData.length := by
    rw [updateData_timeData, updateData_memData]
    split <;> simp [hmem]
  have hmax' : (updateData os a).window.maxDataPoints = 60 := by
    rw [updateData_maxDataPoints, hmax]
  by_cases hk53 : k < 2 ^ 53
  · -- the time advances to `k + 1`
    obtain ⟨hinc, hlt⟩ := hstrict hk53
    have hcur' : (updateData os a).window.currentTime = fin ((k + 1 : ℕ) : ℚ) := by
      rw [updateData_currentTime, hcur]
      exact add_one_of_lt k hk53
    have hkq : (k : ℚ) < ((k + 1 : ℕ) : ℚ) := by push_cast; linarith
    have hle0 : ∀ t ∈ a.window.timeData ++ [a.window.currentTime],
        Dbl.lt t (fin ((k + 1 : ℕ) : ℚ)) = true := by
      intro t ht
      rw [List.mem_append, List.mem_singleton] at ht
      rcases ht with ht | ht
      · exact lt_fin_of_le (hle t ht) hkq
      · rw [ht, hcur]
        simp [Dbl.lt]
    have hinc0 : StrictlyIncreasing (a.window.timeData ++ [a.window.currentTime]) := by
      unfold StrictlyIncreasing at *
      rw [List.pairwise_append]
      refine ⟨hinc, by simp, ?_⟩
      intro x hx y hy
      rw [List.mem_singleton] at hy
      rw [hy, hcur]
      exact hlt x hx
    refine ⟨hmax', ⟨k + 1, by omega, hcur', ?_, ?_⟩, ?_, hlen', hcpu', hmem'⟩
    · intro t ht
      have := hle0 t (hs.subset ht)
      cases t <;> simp_all [Dbl.lt, Dbl.le]
      exact this.le
    · intro _
      exact ⟨List.Pairwise.sublist hs hinc0, fun t ht => hle0 t (hs.subset ht)⟩
    · exact List.Pairwise.sublist hs hnd0
  · -- the time stays at `2^53`
    have hk2 : k = 2 ^ 53 := by omega
    have hcur' : (updateData os a).window.currentTime = fin ((k : ℕ) : ℚ) := by
      rw [updateData_currentTime, hcur, hk2]
      exact add_one_absorbed
    refine ⟨hmax', ⟨k, hk, hcur', ?_, fun h => absurd h hk53⟩, ?_, hlen', hcpu', hmem'⟩
    · intro t ht
      have ht2 := hs.subset ht
      rw [List.mem_append, List.mem_singleton] at ht2
      rcases ht2 with ht2 | ht2
      · exact hle t ht2
      · rw [ht2, hcur]
        simp [Dbl.le]
    · exact List.Pairwise.sublist hs hnd0

theorem reachable_windowInv (a : App) (h : Reachable a) : WindowInv a := by
  induction h with
  | initial => exact windowInv_initial
  | tick os a _ ih => exact windowInv_updateData os a ih
  | clear a _ ih => exact windowInv_clearChart a ih

theorem reachable_runTicks (ps : List TickProbe) :
    ∀ a : App, Reachable a → Reachable (runTicks ps a) := by
  induction ps with
  | nil => intro a h; exact h
  | cons os rest ih => intro a h; exact ih _ (Reachable.tick os a h)

theorem runTicks_append (ps qs : List TickProbe) :
    ∀ a : App, runTicks (ps ++ qs) a = runTicks qs (runTicks ps a) := by
  induction ps with
  | nil => intro a; rfl
  | cons os rest ih => intro a; exact ih _

/-- Repeated ticks count the time up by one each as long as it stays within `2^53`. -/
theorem runTicks_replicate_currentTime (p : TickProbe) (k : ℕ) :
    ∀ (a : App) (c : ℕ), a.window.currentTime = fin (c : ℚ) → c + k ≤ 2 ^ 53 →
      (runTicks (List.replicate k p) a).window.currentTime = fin ((c + k : ℕ) : ℚ) := by
  induction k with
  | zero => intro a c hc _; simpa [runTicks] using hc
  | succ k ih =>
    intro a c hc hck
    rw [List.replicate_succ]
    show (runTicks (List.replicate k p) (updateData p a)).window.currentTime = _
    have h1 : (updateData p a).window.currentTime = fin ((c + 1 : ℕ) : ℚ) := by
      rw [updateData_currentTime, hc]
      exact add_one_of_lt c (by omega)
    rw [ih (updateData p a) (c + 1) h1 (by omega)]
    congr 2
    omega

theorem updateData_timeData_length (os : TickProbe) (a : App) :
    (updateData os a).window.timeData.length =
      if a.window.timeData.length + 1 > a.window.maxDataPoints then a.window.timeData.length
      else a.window.timeData.length + 1 := by
  rw [updateData_timeData]
  split <;> simp

theorem length_appendedPoints (ps : List TickProbe) :
    ∀ a : App, (appendedPoints ps a).length = ps.length := by
  induction ps with
  | nil => intro a; rfl
  | cons os rest ih => intro a; simp [appendedPoints, ih]

/-- One append with its conditional `removeFirst`, followed by later appends, seen as a
suffix of everything appended so far. -/
theorem drop_after_push {α : Type} (C n : Nat) (l : List α) (x : α) (rest : List α)
    (hLC : l.length ≤ C) :
    ((if l.length + 1 > C then (l ++ [x]).tail else l ++ [x]) ++ rest).drop
        ((if l.length + 1 > C then l.length else l.length + 1) + n - C) =
      (l ++ x :: rest).drop (l.length + (n + 1) - C) := by
  split
  · rename_i h
    have hL : l.length = C := by omega
    have e1 : l.length + n - C = n := by omega
    have e2 : l.length + (n + 1) - C = n + 1 := by omega
    rw [e1, e2]
    have e3 : (l ++ [x]).tail ++ rest = (l ++ x :: rest).tail := by
      cases l <;> simp
    rw [e3, List.drop_tail]
  · have e1 : l.length + 1 + n - C = l.length + (n + 1) - C := by omega
    rw [e1]
    simp

/-- Ticks from a state whose three vectors have one length within the capacity: each
vector afterwards is the suffix of the old content followed by every appended value. -/
theorem runTicks_window (ps : List TickProbe) :
    ∀ a : App, a.window.timeData.length ≤ a.window.maxDataPoints →
      a.window.cpuData.length = a.window.timeData.length →
      a.window.memData.length = a.window.timeData.length →
      (runTicks ps a).window.timeData =
          (a.window.timeData ++ (appendedPoints ps a).map (fun p => p.1)).drop
            (a.window.timeData.length + ps.length - a.window.maxDataPoints) ∧
        (runTicks ps a).window.cpuData =
          (a.window.cpuData ++ (appendedPoints ps a).map (fun p => p.2.1)).drop
            (a.window.timeData.length + ps.length - a.window.maxDataPoints) ∧
        (runTicks ps a).window.memData =
          (a.window.memData ++ (appendedPoints ps a).map (fun p => p.2.2)).drop
            (a.window.timeData.length + ps.length - a.window.maxDataPoints) := by
  induction ps with
  | nil =>
    intro a hle _ _
    have e : a.window.timeData.length - a.window.maxDataPoints = 0 := by omega
    simp [runTicks, appendedPoints, e]
  | cons os rest ih =>
    intro a hle hcpu hmem
    have hlen := updateData_timeData_length os a
    have hle2 : (updateData os a).window.timeData.length ≤
        (updateData os a).window.maxDataPoints := by
      rw [hlen, updateData_maxDataPoints]
      split <;> omega
    have hcpu2 : (updateData os a).window.cpuData.length =
        (updateData os a).window.timeData.length := by
      rw [updateData_timeData, updateData_cpuData]
      split <;> simp [hcpu]
    have hmem2 : (updateData os a).window.memData.length =
        (updateData os a).window.timeData.length := by
      rw [updateData_timeData, updateData_memData]
      split <;> simp [hmem]
    obtain ⟨i1, i2, i3⟩ := ih (updateData os a) hle2 hcpu2 hmem2
    simp only [runTicks, appendedPoints, List.map_cons, List.length_cons, tickPoint]
    rw [i1, i2, i3, hlen, updateData_maxDataPoints, updateData_timeData, updateData_cpuData,
      updateData_memData]
    refine ⟨?_, ?_, ?_⟩
    · exact drop_after_push a.window.maxDataPoints rest.length a.window.timeData _ _ hle
    · have := drop_after_push a.window.maxDataPoints rest.length a.window.cpuData
        (getCpuUsage a.cpuStatics os.cpu).1
        ((appendedPoints rest (updateData os a)).map (fun p => p.2.1)) (by omega)
      rw [hcpu] at this
      exact this
    · have := drop_after_push a.window.maxDataPoints rest.length a.window.memData
        (memPercentOf os.mem)
        ((appendedPoints rest (updateData os a)).map (fun p => p.2.2)) (by omega)
      rw [hmem] at this
      exact this

/-- Two ticks from a state whose time has reached `2^53` append that timestamp twice. -/
theorem two_ticks_at_absorption (p : TickProbe) (S : App) (hinv : WindowInv S)
    (hcur : S.window.currentTime = fin ((2 ^ 53 : ℕ) : ℚ)) :
    ∃ l : List Dbl, (runTicks [p, p] S).window.timeData =
      l ++ [fin ((2 ^ 53 : ℕ) : ℚ), fin ((2 ^ 53 : ℕ) : ℚ)] := by
  obtain ⟨hmax, _, _, hlen, hcpu, hmem⟩ := hinv
  have hcur1 : (updateData p S).window.currentTime = fin ((2 ^ 53 : ℕ) : ℚ) := by
    rw [updateData_currentTime, hcur]
    exact add_one_absorbed
  have htd := (runTicks_window [p, p] S (by rw [hmax]; exact hlen) hcpu hmem).1
  refine ⟨S.window.timeData.drop (S.window.timeData.length + 2 - 60), ?_⟩
  rw [htd, hmax]
  simp only [appendedPoints, tickPoint, List.map_cons, List.map_nil, List.length_cons,
    List.length_nil, hcur, hcur1]
  exact List.drop_append_of_le_length (by omega)

/-- C7 (as stated, refuted): the state after `2^53 + 2` timer ticks without a reset is
reachable, and its last two timestamps are both `2^53`: once `currentTime` has reached
`2^53`, `currentTime += 1.0` no longer changes it, so the timestamps are not strictly
increasing. -/
theorem timestamps_repeat_after_absorption :
    Reachable (runTicks absorbingTicks App.initial) ∧
      (runTicks absorbingTicks App.initial).window.timeData.getLast? =
        some (fin ((2 ^ 53 : ℕ) : ℚ)) ∧
      (runTicks absorbingTicks App.initial).window.timeData.dropLast.getLast? =
        some (fin ((2 ^ 53 : ℕ) : ℚ)) ∧
      ¬ StrictlyIncreasing (runTicks absorbingTicks App.initial).window.timeData := by
  have hreach : Reachable (runTicks (List.replicate (2 ^ 53) idleTick) App.initial) :=
    reachable_runTicks _ _ Reachable.initial
  have hcur : (runTicks (List.replicate (2 ^ 53) idleTick) App.initial).window.currentTime =
      fin ((2 ^ 53 : ℕ) : ℚ) := by
    have := runTicks_replicate_currentTime idleTick (2 ^ 53) App.initial 0 rfl (by omega)
    rwa [Nat.zero_add] at this
  have hsplit : runTicks absorbingTicks App.initial =
      runTicks [idleTick, idleTick] (runTicks (List.replicate (2 ^ 53) idleTick) App.initial) :=
    runTicks_append _ _ _
  obtain ⟨l, hl⟩ := two_ticks_at_absorption idleTick _ (reachable_windowInv _ hreach) hcur
  rw [← hsplit] at hl
  refine ⟨?_, ?_, ?_, ?_⟩
  · rw [hsplit]
    exact reachable_runTicks _ _ hreach
  · rw [hl]
    simp
  · rw [hl]
    have e : l ++ [fin ((2 ^ 53 : ℕ) : ℚ), fin ((2 ^ 53 : ℕ) : ℚ)] =
        (l ++ [fin ((2 ^ 53 : ℕ) : ℚ)]) ++ [fin ((2 ^ 53 : ℕ) : ℚ)] := by simp
    rw [e, List.dropLast_concat]
    simp
  · rw [hl]
    unfold StrictlyIncreasing
    rw [List.pairwise_append]
    intro h
    have h2 := h.2.1
    rw [List.pairwise_cons] at h2
    have h3 := h2.1 _ (List.mem_singleton.mpr rfl)
    simp [Dbl.lt] at h3

/-- C7 (amended): in every state reachable from the initial window state by timer ticks
(`updateData`) and chart resets (`clearChart`), each of the three vectors of the rolling
series holds at most `maxDataPoints = 60` points and the timestamps in `timeData` never
decrease from front to back; they are strictly increasing whenever `currentTime` is below
`2^53`, that is, as long as fewer than `2^53` ticks have passed since construction or the
last reset. -/
theorem reachable_bounded_and_ordered (a : App) (h : Reachable a) :
    a.window.maxDataPoints = 60 ∧ a.window.timeData.length ≤ 60 ∧
      a.window.cpuData.length ≤ 60 ∧ a.window.memData.length ≤ 60 ∧
      NonDecreasing a.window.timeData ∧
      (∀ q : ℚ, a.window.currentTime = fin q → q < 2 ^ 53 →
        StrictlyIncreasing a.window.timeData) := by
  obtain ⟨hmax, ⟨k, _, hcur, _, hstrict⟩, hnd, hlen, hcpu, hmem⟩ := reachable_windowInv a h
  refine ⟨hmax, hlen, by omega, by omega, hnd, ?_⟩
  intro q hq hq53
  rw [hcur] at hq
  injection hq with hq
  have hk : k < 2 ^ 53 := by
    have : (k : ℚ) < ((2 ^ 53 : ℕ) : ℚ) := by rw [hq]; push_cast; exact hq53
    exact_mod_cast this
  exact (hstrict hk).1

/-- Witness of the amended C7: the state after 62 ticks, in which two points have been
evicted: 60 points remain, the oldest with timestamp 2 and the newest with timestamp 61,
strictly increasing. -/
theorem reachable_bounded_and_ordered_witness :
    (runTicks (List.replicate 62 idleTick) App.initial).window.timeData.length = 60 ∧
      (runTicks (List.replicate 62 idleTick) App.initial).window.timeData.head? =
        some (fin 2) ∧
      (runTicks (List.replicate 62 idleTick) App.initial).window.timeData.getLast? =
        some (fin 61) ∧
      NonDecreasing (runTicks (List.replicate 62 idleTick) App.initial).window.timeData ∧
      StrictlyIncreasing (runTicks (List.replicate 62 idleTick) App.initial).window.timeData :=
  have h := reachable_bounded_and_ordered _
    (reachable_runTicks (List.replicate 62 idleTick) _ Reachable.initial)
  ⟨by decide!, by decide!, by decide!, h.2.2.2.2.1,
    h.2.2.2.2.2 62 (by decide!) (by norm_num)⟩

/-- C9: from every state `clearChart` leaves the time, cpu and memory vectors empty, keeps
`maxDataPoints`, and applying it twice gives the same state as applying it once. -/
theorem clearChart_empty_and_idempotent (a : App) :
    (clearChart a).window.timeData.length = 0 ∧ (clearChart a).window.cpuData.length = 0 ∧
      (clearChart a).window.memData.length = 0 ∧
      (clearChart a).window.maxDataPoints = a.window.maxDataPoints ∧
      clearChart (clearChart a) = clearChart a := by
  simp [clearChart]

/-- C8: `N` timer ticks on an empty rolling series of capacity `C` leave exactly
`min N C` points, and they are the last `min N C` of the `N` appended points in the order
of appending (the first `N - C` were evicted, oldest first). With capacity 3, five ticks
appending the cpu values `10, 20, 30, 40, 50` at the times `0, 1, 2, 3, 4` leave the points
with cpu `30, 40, 50`. -/
theorem runTicks_keeps_last_points :
    (∀ (ps : List TickProbe) (st : CpuStatics) (C : Nat) (t0 : Dbl),
        (runTicks ps (emptySeries st C t0)).window.timeData.length = min ps.length C ∧
        (runTicks ps (emptySeries st C t0)).window.cpuData.length = min ps.length C ∧
        (runTicks ps (emptySeries st C t0)).window.memData.length = min ps.length C ∧
        (runTicks ps (emptySeries st C t0)).window.timeData =
          ((appendedPoints ps (emptySeries st C t0)).drop (ps.length - C)).map (fun p => p.1) ∧
        (runTicks ps (emptySeries st C t0)).window.cpuData =
          ((appendedPoints ps (emptySeries st C t0)).drop (ps.length - C)).map (fun p => p.2.1) ∧
        (runTicks ps (emptySeries st C t0)).window.memData =
          ((appendedPoints ps (emptySeries st C t0)).drop (ps.length - C)).map
            (fun p => p.2.2)) ∧
      (appendedPoints rampProbes (emptySeries ⟨0, 0, 0, 1, false⟩ 3 (fin 0))).map
          (fun p => (p.1, p.2.1)) =
        [(fin 0, fin 10), (fin 1, fin 20), (fin 2, fin 30), (fin 3, fin 40), (fin 4, fin 50)] ∧
      (runTicks rampProbes (emptySeries ⟨0, 0, 0, 1, false⟩ 3 (fin 0))).window.timeData =
        [fin 2, fin 3, fin 4] ∧
      (runTicks rampProbes (emptySeries ⟨0, 0, 0, 1, false⟩ 3 (fin 0))).window.cpuData =
        [fin 30, fin 40, fin 50] := by
  have gen : ∀ (ps : List TickProbe) (st : CpuStatics) (C : Nat) (t0 : Dbl),
      (runTicks ps (emptySeries st C t0)).window.timeData =
          ((appendedPoints ps (emptySeries st C t0)).drop (ps.length - C)).map (fun p => p.1) ∧
        (runTicks ps (emptySeries st C t0)).window.cpuData =
          ((appendedPoints ps (emptySeries st C t0)).drop (ps.length - C)).map (fun p => p.2.1) ∧
        (runTicks ps (emptySeries st C t0)).window.memData =
          ((appendedPoints ps (emptySeries st C t0)).drop (ps.length - C)).map
            (fun p => p.2.2) := by
    intro ps st C t0
    obtain ⟨h1, h2, h3⟩ := runTicks_window ps (emptySeries st C t0)
      (by simp [emptySeries]) (by simp [emptySeries]) (by simp [emptySeries])
    simp only [emptySeries, List.length_nil, List.nil_append, Nat.zero_add] at h1 h2 h3
    simp only [emptySeries, List.map_drop]
    exact ⟨h1, h2, h3⟩
  refine ⟨?_, by decide!, by decide!, by decide!⟩
  intro ps st C t0
  obtain ⟨h1, h2, h3⟩ := gen ps st C t0
  refine ⟨?_, ?_, ?_, h1, h2, h3⟩
  · rw [h1]; simp [length_appendedPoints]; omega
  · rw [h2]; simp [length_appendedPoints]; omega
  · rw [h3]; simp [length_appendedPoints]; omega

/-! ## The memory percentage -/

theorem mebi_eq : mebi = fin 1048576 := by decide!

theorem band_mebi : Band 20 (1048576 : ℚ) := by
  unfold Band
  norm_num

theorem ofRat_fin_mono {x y rx ry : ℚ} (hx : 0 ≤ x) (h : x ≤ y) (h1 : ofRat x = fin rx)
    (h2 : ofRat y = fin ry) : rx ≤ ry := by
  have := ofRat_mono hx h
  rw [h1, h2] at this
  simpa [Dbl.le] using this

/-- The memory percentage of a sample with `0 < total < 2^64` and `avail ≤ total`: a finite
double within `10^-9` of the exact percentage, and between 0 and 100. -/
theorem memPercentOf_near (m : MemProbe) (ht : 0 < m.ullTotalPhys) (hlt : m.ullTotalPhys < U64)
    (ha : m.ullAvailPhys ≤ m.ullTotalPhys) :
    ∃ r : ℚ, memPercentOf m = fin r ∧
      |r - ((m.ullTotalPhys : ℚ) - (m.ullAvailPhys : ℚ)) / (m.ullTotalPhys : ℚ) * 100| ≤
        1 / 10 ^ 9 ∧ 0 ≤ r ∧ r ≤ 100 := by
  have e : sub64 m.ullTotalPhys m.ullAvailPhys = m.ullTotalPhys - m.ullAvailPhys :=
    sub64_of_le hlt ha
  have ht64 : m.ullTotalPhys < 2 ^ 64 := hlt
  have hM0 : (1048576 : ℚ) ≠ 0 := by norm_num
  have htq : (0 : ℚ) < (m.ullTotalPhys : ℚ) := by exact_mod_cast ht
  -- the total, converted and scaled
  obtain ⟨B, hB, hBn, hBb⟩ := ofNat_near (ne_of_gt ht) ht64
  have hbT := band_div hBb band_mebi
  obtain ⟨T, hT, hTn⟩ := near_round
    (near_div hBn (near_refl _) (band_pos hBb) (band_pos band_mebi)) (by norm_num)
    (band_mono (by norm_num) hbT)
  have hT0 : 0 < T := near_pos hTn (band_pos hbT)
  have hval : memPercentOf m =
      (((Dbl.ofNat (m.ullTotalPhys - m.ullAvailPhys)).div (fin 1048576)).div (fin T)).mul
        (fin 100) := by
    simp only [memPercentOf, getMemoryUsage, e, mebi_eq]
    rw [hB, div_fin_of_ne hM0, hT]
  by_cases hd : m.ullTotalPhys - m.ullAvailPhys = 0
  · -- nothing in use
    refine ⟨0, ?_, ?_, le_rfl, by norm_num⟩
    · rw [hval, hd, ofNat_zero, div_fin_of_ne hM0, zero_div, ofRat_zero,
        div_fin_of_ne (ne_of_gt hT0), zero_div, ofRat_zero, mul_fin, zero_mul, ofRat_zero]
    · have : (m.ullTotalPhys : ℚ) - (m.ullAvailPhys : ℚ) = 0 := by
        rw [← Nat.cast_sub ha, hd]
        simp
      rw [this]
      norm_num
  · -- the used part, converted and scaled
    have hd64 : m.ullTotalPhys - m.ullAvailPhys < 2 ^ 64 := by omega
    obtain ⟨A, hA, hAn, hAb⟩ := ofNat_near hd hd64
    have hbU := band_div hAb band_mebi
    obtain ⟨U, hU, hUn⟩ := near_round
      (near_div hAn (near_refl _) (band_pos hAb) (band_pos band_mebi)) (by norm_num)
      (band_mono (by norm_num) hbU)
    have hU0 : 0 < U := near_pos hUn (band_pos hbU)
    -- the quotient
    have hbQ := band_div hbU hbT
    obtain ⟨Q, hQ, hQn⟩ := near_round (near_div hUn hTn (band_pos hbU) (band_pos hbT))
      (by norm_num) (band_mono (by norm_num) hbQ)
    -- times one hundred
    have hbP := band_mul_hundred hbQ
    obtain ⟨P, hP, hPn⟩ := near_round (near_mul_const hQn 100 (by norm_num)) (by norm_num)
      (band_mono (by norm_num) hbP)
    have hvP : memPercentOf m = fin P := by
      rw [hval, hA, div_fin_of_ne hM0, hU, div_fin_of_ne (ne_of_gt hT0), hQ, mul_fin, hP]
    -- the exact value
    have hdq : ((m.ullTotalPhys - m.ullAvailPhys : ℕ) : ℚ) =
        (m.ullTotalPhys : ℚ) - (m.ullAvailPhys : ℚ) := Nat.cast_sub ha
    have hE : ((m.ullTotalPhys - m.ullAvailPhys : ℕ) : ℚ) / 1048576 /
        ((m.ullTotalPhys : ℚ) / 1048576) * 100 =
        ((m.ullTotalPhys : ℚ) - (m.ullAvailPhys : ℚ)) / (m.ullTotalPhys : ℚ) * 100 := by
      rw [hdq]
      field_simp
    have haq : (0 : ℚ) ≤ (m.ullAvailPhys : ℚ) := Nat.cast_nonneg _
    have hle : (m.ullAvailPhys : ℚ) ≤ (m.ullTotalPhys : ℚ) := by exact_mod_cast ha
    have hE0 : 0 ≤ ((m.ullTotalPhys : ℚ) - (m.ullAvailPhys : ℚ)) / (m.ullTotalPhys : ℚ) * 100 :=
      mul_nonneg (div_nonneg (by linarith) htq.le) (by norm_num)
    have hE100 : ((m.ullTotalPhys : ℚ) - (m.ullAvailPhys : ℚ)) / (m.ullTotalPhys : ℚ) * 100 ≤
        100 := by
      rw [div_mul_eq_mul_div, div_le_iff₀ htq]
      nlinarith
    rw [hE] at hPn
    -- the range, by monotonicity of every rounding
    have hAB : A ≤ B := by
      have h1 : ((m.ullTotalPhys - m.ullAvailPhys : ℕ) : ℚ) ≤ (m.ullTotalPhys : ℚ) := by
        exact_mod_cast Nat.sub_le _ _
      exact ofRat_fin_mono (Nat.cast_nonneg _) h1 hA hB
    have hA0 : 0 < A := near_pos hAn (band_pos hAb)
    have hUT : U ≤ T :=
      ofRat_fin_mono (div_nonneg hA0.le (by norm_num))
        (div_le_div_of_nonneg_right hAB (by norm_num)) hU hT
    obtain ⟨Q', hQ', _, hQ1⟩ := ofRat_le_nat (x := U / T) 1 (by norm_num)
      (div_nonneg hU0.le hT0.le) (by rw [div_le_iff₀ hT0]; simpa using hUT)
    have hQQ : Q' = Q := by
      rw [hQ] at hQ'
      injection hQ' with h
      exact h.symm
    rw [hQQ] at hQ1
    have hQ0 : 0 < Q := near_pos hQn (div_pos (band_pos hbU) (band_pos hbT))
    obtain ⟨P', hP', hP0, hP100⟩ := ofRat_le_nat (x := Q * 100) 100 (by norm_num)
      (mul_nonneg hQ0.le (by norm_num)) (by norm_num at hQ1 ⊢; linarith)
    have hPP : P' = P := by
      rw [hP] at hP'
      injection hP' with h
      exact h.symm
    rw [hPP] at hP0 hP100
    exact ⟨P, hvP, near_abs_sub hPn (by norm_num) hE0 hE100, hP0, by simpa using hP100⟩

/-- In a reachable state a tick leaves its memory percentage as the last memory point. -/
theorem updateData_memData_getLast (os : TickProbe) (a : App) (hr : Reachable a) :
    (updateData os a).window.memData.getLast? = some (memPercentOf os.mem) := by
  obtain ⟨hmax, _, _, hlen, _, hmem⟩ := reachable_windowInv a hr
  rw [updateData_memData]
  split
  · rename_i h
    have hne : a.window.memData ≠ [] := by
      intro h0
      rw [h0] at hmem
      simp at hmem
      omega
    cases hl : a.window.memData with
    | nil => exact absurd hl hne
    | cons y ys => simp
  · simp

/-- C10 (as stated, refuted): with three bytes installed and one available the hypotheses
of the claim hold, and the first tick appends the double `2345624805922133 / 2^45`
(66.66666666666666), not the rational `200 / 3`. -/
theorem updateData_memPercent_not_exact :
    0 < thirdsTick.mem.ullTotalPhys ∧
      thirdsTick.mem.ullAvailPhys ≤ thirdsTick.mem.ullTotalPhys ∧
      ((thirdsTick.mem.ullTotalPhys : ℚ) - (thirdsTick.mem.ullAvailPhys : ℚ)) /
        (thirdsTick.mem.ullTotalPhys : ℚ) * 100 = 200 / 3 ∧
      (updateData thirdsTick App.initial).window.memData.getLast? =
        some (fin (2345624805922133 / 2 ^ 45)) ∧
      fin (2345624805922133 / 2 ^ 45) ≠ fin (200 / 3) := by
  refine ⟨by decide, by decide, ?_, by decide!, ?_⟩
  · simp [thirdsTick]
    norm_num
  · intro h
    injection h with h
    norm_num at h

/-- C10 (amended): for a memory sample with `0 < totalBytes` (below `2^64`) and
`availableBytes ≤ totalBytes`, the memory percentage that a timer tick appends in any
reachable state is a finite double within `10^-9` of
`(totalBytes - availableBytes) / totalBytes × 100`, and it lies in `[0, 100]`. It is that
number rounded at each conversion and operation, not the exact rational. -/
theorem updateData_memPercent (os : TickProbe) (a : App) (hr : Reachable a)
    (ht : 0 < os.mem.ullTotalPhys) (hlt : os.mem.ullTotalPhys < U64)
    (ha : os.mem.ullAvailPhys ≤ os.mem.ullTotalPhys) :
    ∃ r : ℚ, (updateData os a).window.memData.getLast? = some (fin r) ∧
      |r - ((os.mem.ullTotalPhys : ℚ) - (os.mem.ullAvailPhys : ℚ)) /
          (os.mem.ullTotalPhys : ℚ) * 100| ≤ 1 / 10 ^ 9 ∧
      0 ≤ r ∧ r ≤ 100 := by
  obtain ⟨r, hr1, hr2, hr3, hr4⟩ := memPercentOf_near os.mem ht hlt ha
  exact ⟨r, by rw [updateData_memData_getLast os a hr, hr1], hr2, hr3, hr4⟩

/-- Witness of the amended C10: the tick with three bytes installed and one available
appends the double `2345624805922133 / 2^45`, which is not `200 / 3` but lies within `10^-9`
of it and between 0 and 100. -/
theorem updateData_memPercent_witness :
    (updateData thirdsTick App.initial).window.memData.getLast? =
        some (fin (2345624805922133 / 2 ^ 45)) ∧
      |(2345624805922133 / 2 ^ 45 : ℚ) - ((3 : ℚ) - 1) / 3 * 100| ≤ 1 / 10 ^ 9 ∧
      (0 : ℚ) ≤ 2345624805922133 / 2 ^ 45 ∧ (2345624805922133 / 2 ^ 45 : ℚ) ≤ 100 := by
  obtain ⟨r, hr, hb, h0, h100⟩ := updateData_memPercent thirdsTick App.initial
    Reachable.initial (by decide) (by simp [U64, thirdsTick]) (by decide)
  have hv : (updateData thirdsTick App.initial).window.memData.getLast? =
      some (fin (2345624805922133 / 2 ^ 45)) := by decide!
  have hrv : r = 2345624805922133 / 2 ^ 45 := by
    rw [hv] at hr
    injection hr with h
    injection h with h
    exact h.symm
  rw [hrv] at hb h0 h100
  refine ⟨hv, ?_, h0, h100⟩
  simpa [thirdsTick] using hb

/-! ## The process list -/

theorem ofRat_ne_nan {q : ℚ} (hq : 0 ≤ q) : ofRat q ≠ nan := by
  rcases ofRat_nonneg hq with h | ⟨r, h, _⟩ <;> rw [h] <;> simp

/-- A memory figure computed by `getProcessList` is never NaN. -/
theorem getProcessList_orderedMemory (snapshot : Option (List SnapshotEntry)) :
    ∀ p ∈ getProcessList snapshot, p.OrderedMemory := by
  intro p hp
  cases snapshot with
  | none => simp [getProcessList] at hp
  | some entries =>
    simp only [getProcessList, List.mem_filterMap, Option.map_eq_some'] at hp
    obtain ⟨entry, _, ws, _, rfl⟩ := hp
    show (Dbl.ofNat ws).div mebi ≠ nan
    rw [mebi_eq]
    rcases ofRat_nonneg (Nat.cast_nonneg ws : (0 : ℚ) ≤ (ws : ℚ)) with h | ⟨r, h, hr⟩
    · rw [Dbl.ofNat, h]
      simp [Dbl.div]
    · rw [Dbl.ofNat, h, div_fin_of_ne (by norm_num)]
      exact ofRat_ne_nan (div_nonneg hr (by norm_num))

theorem insertByComp_perm {α : Type} (comp : α → α → Bool) (x : α) (l : List α) :
    (insertByComp comp x l).Perm (x :: l) := by
  induction l with
  | nil => exact List.Perm.refl _
  | cons y ys ih =>
    simp only [insertByComp]
    split
    · exact (List.Perm.cons y ih).trans (List.Perm.swap x y ys)
    · exact List.Perm.refl _

theorem insertionSortByComp_perm {α : Type} (comp : α → α → Bool) (l : List α) :
    (insertionSortByComp comp l).Perm l := by
  induction l with
  | nil => exact List.Perm.refl _
  | cons x xs ih =>
    simp only [insertionSortByComp]
    exact (insertByComp_perm comp x _).trans (List.Perm.cons x ih)

/-- Operator `<` never holds both ways. -/
theorem lt_asymm_dbl {a b : Dbl} (h : Dbl.lt a b = true) : Dbl.lt b a = false := by
  cases a <;> cases b <;> simp_all [Dbl.lt]
  exact h.le

/-- Away from NaN, "not smaller" is transitive. -/
theorem lt_false_trans {a b c : Dbl} (hb : b ≠ nan) (h1 : Dbl.lt a b = false)
    (h2 : Dbl.lt b c = false) : Dbl.lt a c = false := by
  cases a <;> cases b <;> cases c <;> simp_all [Dbl.lt]
  exact h2.trans h1

/-- Away from NaN, "not smaller" is "at least". -/
theorem le_of_lt_false {a b : Dbl} (ha : a ≠ nan) (hb : b ≠ nan) (h : Dbl.lt a b = false) :
    Dbl.le b a = true := by
  cases a <;> cases b <;> simp_all [Dbl.lt, Dbl.le]

theorem insertByComp_sorted (x : ProcessInfo) (l : List ProcessInfo)
    (hl : ∀ p ∈ l, p.OrderedMemory)
    (hs : l.Pairwise (fun a b => memoryGreater b a = false)) :
    (insertByComp memoryGreater x l).Pairwise (fun a b => memoryGreater b a = false) := by
  induction l with
  | nil => simp [insertByComp]
  | cons y ys ih =>
    rw [List.pairwise_cons] at hs
    simp only [insertByComp]
    cases hc : memoryGreater y x with
    | true =>
      simp only [if_true]
      rw [List.pairwise_cons]
      refine ⟨?_, ih (fun p hp => hl p (List.mem_cons_of_mem _ hp)) hs.2⟩
      intro z hz
      have hz2 : z ∈ x :: ys := (insertByComp_perm memoryGreater x ys).subset hz
      rw [List.mem_cons] at hz2
      rcases hz2 with hz2 | hz2
      · rw [hz2]
        exact lt_asymm_dbl hc
      · exact hs.1 z hz2
    | false =>
      simp only [Bool.false_eq_true, if_false]
      rw [List.pairwise_cons]
      refine ⟨?_, List.pairwise_cons.mpr hs⟩
      intro z hz
      rw [List.mem_cons] at hz
      rcases hz with hz | hz
      · rw [hz]; exact hc
      · exact lt_false_trans (hl y (by simp)) hc (hs.1 z hz)

theorem insertionSortByComp_sorted (l : List ProcessInfo) (hl : ∀ p ∈ l, p.OrderedMemory) :
    (insertionSortByComp memoryGreater l).Pairwise (fun a b => memoryGreater b a = false) := by
  induction l with
  | nil => simp [insertionSortByComp]
  | cons x xs ih =>
    simp only [insertionSortByComp]
    refine insertByComp_sorted x _ ?_ (ih (fun p hp => hl p (List.mem_cons_of_mem _ hp)))
    intro p hp
    exact hl p (List.mem_cons_of_mem _ ((insertionSortByComp_perm memoryGreater xs).subset hp))

theorem getProcessList_tieSnapshot : getProcessList tieSnapshot = tieRows := by decide!

/-- C6 (as stated, refuted): for the snapshot `A (pid 100, 500 MB)`, `B (pid 50, 500 MB)`,
`C (pid 10, 100 MB)` the order `A, B, C` satisfies the contract of `std::sort` with the
comparator of `updateProcessList` and is what insertion sort returns, yet `A` (pid 100)
stands before `B` (pid 50) with equal memory: the comparator never looks at the pid. -/
theorem updateProcessList_ties_not_by_pid :
    getProcessList tieSnapshot = tieRows ∧
      updateProcessList tieSnapshot tieRows ∧
      insertionSortByComp memoryGreater (getProcessList tieSnapshot) = tieRows ∧
      ¬ SortedWithPidTieBreak tieRows := by
  refine ⟨getProcessList_tieSnapshot, ?_, ?_, ?_⟩
  · refine ⟨?_, ?_⟩
    · rw [getProcessList_tieSnapshot]
    · simp [tieRows, memoryGreater, Dbl.lt]
      norm_num
  · rw [getProcessList_tieSnapshot]
    simp [insertionSortByComp, insertByComp, tieRows, memoryGreater, Dbl.lt]
  · intro h
    have := (h (⟨"A", 100, fin 500⟩, ⟨"B", 50, fin 500⟩)
      (by simp [adjacentRows, tieRows])).2 rfl
    simp at this

/-- C6 (amended): whatever `getProcessList` returns, `updateProcessList` can display it
(insertion sort by the comparator meets the contract of `std::sort`), and every order it
may display is a rearrangement of the process list with memory descending from each row
to every later row. Rows of equal memory come in no particular order. -/
theorem updateProcessList_sorted_by_memory (snapshot : Option (List SnapshotEntry)) :
    updateProcessList snapshot (insertionSortByComp memoryGreater (getProcessList snapshot)) ∧
      ∀ rows, updateProcessList snapshot rows →
        rows.Perm (getProcessList snapshot) ∧
          rows.Pairwise (fun a b => Dbl.le b.memoryMB a.memoryMB = true) := by
  refine ⟨⟨insertionSortByComp_perm _ _,
    insertionSortByComp_sorted _ (getProcessList_orderedMemory snapshot)⟩, ?_⟩
  intro rows h
  refine ⟨h.1, ?_⟩
  refine List.Pairwise.imp_of_mem ?_ h.2
  intro a b ha hb hab
  exact le_of_lt_false (getProcessList_orderedMemory snapshot a (h.1.subset ha))
    (getProcessList_orderedMemory snapshot b (h.1.subset hb)) hab

/-- Witness of the amended C6: the order `B, A, C` of the three-process snapshot. -/
theorem updateProcessList_sorted_by_memory_witness :
    [(⟨"B", 50, fin 500⟩ : ProcessInfo), ⟨"A", 100, fin 500⟩, ⟨"C", 10, fin 100⟩].Pairwise
      (fun a b => Dbl.le b.memoryMB a.memoryMB = true) := by
  refine ((updateProcessList_sorted_by_memory tieSnapshot).2
    [⟨"B", 50, fin 500⟩, ⟨"A", 100, fin 500⟩, ⟨"C", 10, fin 100⟩] ⟨?_, ?_⟩).2
  · rw [getProcessList_tieSnapshot, tieRows]
    exact List.Perm.swap _ _ _
  · simp [memoryGreater, Dbl.lt]
    norm_num

end SystemMonitor
